import Mathlib

/-!
Verification development for the chrome-jig session core.

This file gives a shallow embedding, in Lean 4, of the protocol/session core of
the repository: the JSON-RPC 2.0 adapter (`src/session/jsonrpc-protocol.ts`),
the REPL adapter (`src/session/repl-protocol.ts`), the session dispatcher
(`src/session/session.ts`), the connection-resilience layer
(`src/chrome/resilience.ts`) with its error classifier and the typed error
hierarchy (`src/errors.ts`), and the nREPL server's bencode framing loop
(`src/nrepl/server.ts`).  JavaScript values that cross the wire are modelled by
an inductive `Json` type (numbers restricted to integers; floating point is out
of scope), JS strings by Lean `String`, byte buffers by `List Nat` with entries
below 256, and asynchronous effects by explicit state passing / event traces.
-/

set_option maxHeartbeats 1000000

/-- A JSON value as produced by `JSON.parse`.  Object fields are kept in wire
order; duplicate keys are permitted and field lookup takes the last occurrence,
matching `JSON.parse` semantics.  Numbers are modelled as integers. -/
inductive Json where
  | null : Json
  | bool : Bool → Json
  | num : Int → Json
  | str : String → Json
  | arr : List Json → Json
  | obj : List (String × Json) → Json
deriving Repr

/-- Field lookup on a JSON value: on objects, the value of the last field with
the given key (the binding `JSON.parse` would produce); `none` on missing keys
and on non-objects (modelling the JS `undefined`). -/
def jGet (j : Json) (key : String) : Option Json :=
  match j with
  | .obj fields => fields.reverse.lookup key
  | _ => none

/-- The character `{` (written via its code point to keep string literals plain). -/
def lbraceC : Char := Char.ofNat 123

/-- The character `}`. -/
def rbraceC : Char := Char.ofNat 125

/-- Decimal digit test on characters (codes 48–57). -/
def isDigitChar (c : Char) : Bool := 48 ≤ c.toNat && c.toNat ≤ 57

/-- Lowercase hexadecimal digit for a value below 16, as emitted by
`JSON.stringify` in `\u00XX` escapes. -/
def hexDigitChar (n : Nat) : Char :=
  if n < 10 then Char.ofNat (48 + n) else Char.ofNat (87 + n)

/-- Decimal digit characters of a natural number, most significant first
(the digits `String(n)` would produce in JS). -/
def natDigitChars (n : Nat) : List Char :=
  if h : n < 10 then [Char.ofNat (48 + n)]
  else natDigitChars (n / 10) ++ [Char.ofNat (48 + n % 10)]
termination_by n
decreasing_by exact Nat.div_lt_self (by omega) (by omega)

/-- Decimal rendering of an integer, as `JSON.stringify` renders an integral
JS number. -/
def intChars (n : Int) : List Char :=
  if n < 0 then '-' :: natDigitChars n.natAbs else natDigitChars n.toNat

/-- Escape of one character inside a JSON string literal, following
`JSON.stringify`: short escapes for quote, backslash and the common control
characters, `\u00XX` for the remaining control characters, everything else
literal. -/
def jsonEscapeChar (c : Char) : List Char :=
  if c = '"' then ['\\', '"']
  else if c = '\\' then ['\\', '\\']
  else if c = '\n' then ['\\', 'n']
  else if c = '\r' then ['\\', 'r']
  else if c = '\t' then ['\\', 't']
  else if c = Char.ofNat 8 then ['\\', 'b']
  else if c = Char.ofNat 12 then ['\\', 'f']
  else if c.toNat < 32 then
    ['\\', 'u', '0', '0', hexDigitChar (c.toNat / 16), hexDigitChar (c.toNat % 16)]
  else [c]

/-- Escape of a whole string body. -/
def jsonEscape : List Char → List Char
  | [] => []
  | c :: cs => jsonEscapeChar c ++ jsonEscape cs

mutual
/-- Characters `JSON.stringify` produces for a value (no whitespace, fields in
order, strings escaped as in `jsonEscapeChar`). -/
def jprint : Json → List Char
  | .null => ['n', 'u', 'l', 'l']
  | .bool b => if b then ['t', 'r', 'u', 'e'] else ['f', 'a', 'l', 's', 'e']
  | .num n => intChars n
  | .str s => '"' :: (jsonEscape s.data ++ ['"'])
  | .arr xs => '[' :: (jprintArrBody xs ++ [']'])
  | .obj fs => lbraceC :: (jprintObjBody fs ++ [rbraceC])
/-- Contents of a printed array (elements separated by commas). -/
def jprintArrBody : List Json → List Char
  | [] => []
  | x :: xs => jprint x ++ jprintItems xs
/-- Comma-led tail elements of a printed array. -/
def jprintItems : List Json → List Char
  | [] => []
  | x :: xs => ',' :: (jprint x ++ jprintItems xs)
/-- Contents of a printed object (fields separated by commas). -/
def jprintObjBody : List (String × Json) → List Char
  | [] => []
  | f :: fs => jprintField f ++ jprintFields fs
/-- One printed field: quoted key, colon, value. -/
def jprintField : String × Json → List Char
  | (k, v) => '"' :: (jsonEscape k.data ++ ('"' :: ':' :: jprint v))
/-- Comma-led tail fields of a printed object. -/
def jprintFields : List (String × Json) → List Char
  | [] => []
  | f :: fs => ',' :: (jprintField f ++ jprintFields fs)
end

/-- Model of `JSON.stringify` (numbers restricted to integers). -/
def Json.stringify (j : Json) : String := String.mk (jprint j)

/-- Numeric value of a hexadecimal digit character, if it is one. -/
def hexVal (c : Char) : Option Nat :=
  if 48 ≤ c.toNat ∧ c.toNat ≤ 57 then some (c.toNat - 48)
  else if 97 ≤ c.toNat ∧ c.toNat ≤ 102 then some (c.toNat - 87)
  else if 65 ≤ c.toNat ∧ c.toNat ≤ 70 then some (c.toNat - 55)
  else none

/-- Greedy decimal accumulator: consumes leading digit characters. -/
def readDigitsGo (acc : Nat) : List Char → Nat × List Char
  | [] => (acc, [])
  | c :: rest =>
    if isDigitChar c then readDigitsGo (acc * 10 + (c.toNat - 48)) rest
    else (acc, c :: rest)

/-- Reads a non-empty maximal run of decimal digits from the front. -/
def readDigits (cs : List Char) : Option (Nat × List Char) :=
  match cs with
  | [] => none
  | c :: _ => if isDigitChar c then some (readDigitsGo 0 cs) else none

/-- Body of a JSON string literal after the opening quote: returns the decoded
characters and the input following the closing quote. -/
def jparseStringBody : List Char → Option (List Char × List Char)
  | [] => none
  | c :: rest =>
    if c = '"' then some ([], rest)
    else if c = '\\' then
      match rest with
      | [] => none
      | e :: rest2 =>
        if e = '"' then (jparseStringBody rest2).map (fun p => ('"' :: p.1, p.2))
        else if e = '\\' then (jparseStringBody rest2).map (fun p => ('\\' :: p.1, p.2))
        else if e = '/' then (jparseStringBody rest2).map (fun p => ('/' :: p.1, p.2))
        else if e = 'n' then (jparseStringBody rest2).map (fun p => ('\n' :: p.1, p.2))
        else if e = 'r' then (jparseStringBody rest2).map (fun p => ('\r' :: p.1, p.2))
        else if e = 't' then (jparseStringBody rest2).map (fun p => ('\t' :: p.1, p.2))
        else if e = 'b' then (jparseStringBody rest2).map (fun p => (Char.ofNat 8 :: p.1, p.2))
        else if e = 'f' then (jparseStringBody rest2).map (fun p => (Char.ofNat 12 :: p.1, p.2))
        else if e = 'u' then
          match rest2 with
          | h1 :: h2 :: h3 :: h4 :: rest3 =>
            match hexVal h1, hexVal h2, hexVal h3, hexVal h4 with
            | some a, some b, some c2, some d =>
              (jparseStringBody rest3).map
                (fun p => (Char.ofNat (((a * 16 + b) * 16 + c2) * 16 + d) :: p.1, p.2))
            | _, _, _, _ => none
          | _ => none
        else none
    else (jparseStringBody rest).map (fun p => (c :: p.1, p.2))

mutual
/-- Fuel-indexed JSON value parser (recursive descent, no whitespace skipping:
it reads exactly the grammar `jprint` emits, which is what `JSON.parse` sees on
a `JSON.stringify` output).  Returns the value and the unconsumed input. -/
def jparseF : Nat → List Char → Option (Json × List Char)
  | 0, _ => none
  | _ + 1, [] => none
  | fuel + 1, c :: rest =>
    if c = 'n' then
      match rest with
      | 'u' :: 'l' :: 'l' :: r => some (.null, r)
      | _ => none
    else if c = 't' then
      match rest with
      | 'r' :: 'u' :: 'e' :: r => some (.bool true, r)
      | _ => none
    else if c = 'f' then
      match rest with
      | 'a' :: 'l' :: 's' :: 'e' :: r => some (.bool false, r)
      | _ => none
    else if c = '"' then
      (jparseStringBody rest).map (fun p => (.str (String.mk p.1), p.2))
    else if c = '-' then
      match readDigits rest with
      | some (m, r) => some (.num (-(m : Int)), r)
      | none => none
    else if isDigitChar c then
      match readDigits (c :: rest) with
      | some (m, r) => some (.num (m : Int), r)
      | none => none
    else if c = '[' then
      (jparseItemsStartF fuel rest).map (fun p => (.arr p.1, p.2))
    else if c = lbraceC then
      (jparseFieldsStartF fuel rest).map (fun p => (.obj p.1, p.2))
    else none
/-- Array contents right after `[`: empty array or first element then tail. -/
def jparseItemsStartF : Nat → List Char → Option (List Json × List Char)
  | 0, _ => none
  | _ + 1, [] => none
  | fuel + 1, c :: rest =>
    if c = ']' then some ([], rest)
    else
      match jparseF fuel (c :: rest) with
      | some (v, r2) => (jparseItemsLoopF fuel r2).map (fun p => (v :: p.1, p.2))
      | none => none
/-- Array tail: either `]` or `,` followed by the next element. -/
def jparseItemsLoopF : Nat → List Char → Option (List Json × List Char)
  | 0, _ => none
  | _ + 1, [] => none
  | fuel + 1, c :: rest =>
    if c = ']' then some ([], rest)
    else if c = ',' then
      match jparseF fuel rest with
      | some (v, r2) => (jparseItemsLoopF fuel r2).map (fun p => (v :: p.1, p.2))
      | none => none
    else none
/-- One object field: quoted key, `:`, value. -/
def jparseFieldF : Nat → List Char → Option ((String × Json) × List Char)
  | 0, _ => none
  | _ + 1, [] => none
  | fuel + 1, c :: rest =>
    if c = '"' then
      match jparseStringBody rest with
      | some (k, r2) =>
        match r2 with
        | ':' :: r3 =>
          match jparseF fuel r3 with
          | some (v, r4) => some ((String.mk k, v), r4)
          | none => none
        | _ => none
      | none => none
    else none
/-- Object contents right after the opening brace. -/
def jparseFieldsStartF : Nat → List Char → Option (List (String × Json) × List Char)
  | 0, _ => none
  | _ + 1, [] => none
  | fuel + 1, c :: rest =>
    if c = rbraceC then some ([], rest)
    else
      match jparseFieldF fuel (c :: rest) with
      | some (f, r2) => (jparseFieldsLoopF fuel r2).map (fun p => (f :: p.1, p.2))
      | none => none
/-- Object tail: either the closing brace or `,` followed by the next field. -/
def jparseFieldsLoopF : Nat → List Char → Option (List (String × Json) × List Char)
  | 0, _ => none
  | _ + 1, [] => none
  | fuel + 1, c :: rest =>
    if c = rbraceC then some ([], rest)
    else if c = ',' then
      match jparseFieldF fuel rest with
      | some (f, r2) => (jparseFieldsLoopF fuel r2).map (fun p => (f :: p.1, p.2))
      | none => none
    else none
end

/-- Model of `JSON.parse` restricted to the whitespace-free grammar: parses one
value and requires the whole input to be consumed. -/
def Json.parseStr (s : String) : Option Json :=
  match jparseF (s.data.length + 1) s.data with
  | some (j, []) => some j
  | _ => none

/-!  JS string primitives, modelled over the character list so that they
compute by kernel reduction (the built-in `String` operations go through
well-founded recursion and do not). -/

/-- Does the first list occur as a leading segment of the second? -/
def listStartsWithB : List Char → List Char → Bool
  | [], _ => true
  | _ :: _, [] => false
  | a :: as_, b :: bs => a == b && listStartsWithB as_ bs

/-- Does the first list occur contiguously anywhere inside the second? -/
def listContainsSeg (needle : List Char) : List Char → Bool
  | [] => needle.isEmpty
  | c :: rest => listStartsWithB needle (c :: rest) || listContainsSeg needle rest

/-- JS `hay.includes(needle)` on strings. -/
def containsSub (needle hay : String) : Bool := listContainsSeg needle.data hay.data

/-- JS `s.toLowerCase()` (ASCII range). -/
def jsToLower (s : String) : String := String.mk (s.data.map Char.toLower)

/-- JS `s.trim()`: strip whitespace from both ends. -/
def jsTrim (s : String) : String :=
  String.mk (((s.data.dropWhile Char.isWhitespace).reverse.dropWhile
    Char.isWhitespace).reverse)

/-- JS `s.startsWith(p)`. -/
def jsStartsWith (s p : String) : Bool := listStartsWithB p.data s.data

/-!  Protocol contract (src/session/protocol.ts). -/

/-- A parsed request ready for dispatch (`Request` in protocol.ts).  `params`
is an object, kept as a field list; `id` is optional. -/
structure Request where
  id : Option Json
  method : String
  params : List (String × Json)
deriving Repr

/-- Returned by `parse` when the input is malformed at the protocol level
(`ProtocolError` in protocol.ts; the `kind` discriminant is carried by the
`ParseOutcome` constructor instead of a string tag). -/
structure ProtocolError where
  code : Int
  message : String
  id : Option Json
deriving Repr

/-- Result of `Protocol.parse`: `skip` models the `null` return (blank lines
and REPL-local commands), `err` a `ProtocolError`, `req` a `Request`. -/
inductive ParseOutcome where
  | skip
  | err (e : ProtocolError)
  | req (r : Request)
deriving Repr

/-!  JSON-RPC 2.0 adapter (src/session/jsonrpc-protocol.ts). -/

def PARSE_ERROR : Int := -32700
def INVALID_REQUEST : Int := -32600
def METHOD_NOT_FOUND : Int := -32601
def INVALID_PARAMS : Int := -32602
def INTERNAL_ERROR : Int := -32603

/-- Envelope validation of `JsonRpcProtocol.parse` after `JSON.parse` has
succeeded (jsonrpc-protocol.ts lines 36–59): the input must be a non-array
object, `jsonrpc` must be the literal string "2.0", `method` a non-empty
string, and `params`, when present, a non-array object; any `id` found in the
envelope is preserved on errors past the object check.  (The earlier steps of
`parse` — blank line → null, invalid JSON → code -32700 — happen before this
value-level validation.) -/
def jsonRpcParseValue (parsed : Json) : ParseOutcome :=
  match parsed with
  | .obj _ =>
    match jGet parsed "jsonrpc" with
    | some (.str "2.0") =>
      match jGet parsed "method" with
      | some (.str m) =>
        if m = "" then
          .err ⟨INVALID_REQUEST, "Invalid request: missing method", jGet parsed "id"⟩
        else
          match jGet parsed "params" with
          | none => .req ⟨jGet parsed "id", m, []⟩
          | some (.obj ps) => .req ⟨jGet parsed "id", m, ps⟩
          | some _ => .err ⟨INVALID_PARAMS, "Invalid params: must be an object", jGet parsed "id"⟩
      | _ => .err ⟨INVALID_REQUEST, "Invalid request: missing method", jGet parsed "id"⟩
    | _ => .err ⟨INVALID_REQUEST, "Invalid request: missing jsonrpc \"2.0\"", jGet parsed "id"⟩
  | _ => .err ⟨INVALID_REQUEST, "Invalid request", none⟩

/-- The JSON object `JsonRpcProtocol.formatResult` serializes:
`{jsonrpc: "2.0", id: request.id ?? null, result: result ?? null}`.  The
handler result is an `Option Json`: `none` models the JS `undefined` (and the
`??` fallback turns both `undefined` and `null` into JSON `null`, which
`Option.getD .null` reproduces since `some .null` already is `null`). -/
def jsonRpcFormatResultObj (request : Request) (result : Option Json) : Json :=
  .obj [("jsonrpc", .str "2.0"), ("id", request.id.getD .null), ("result", result.getD .null)]

/-- `JsonRpcProtocol.formatResult`: the serialized response line. -/
def jsonRpcFormatResult (request : Request) (result : Option Json) : String :=
  (jsonRpcFormatResultObj request result).stringify

/-- `JsonRpcProtocol.formatError`:
`{jsonrpc: "2.0", id: request?.id ?? null, error: {code, message}}`. -/
def jsonRpcFormatError (request : Option Request) (code : Int) (message : String) : String :=
  (Json.obj [("jsonrpc", .str "2.0"),
             ("id", ((request.map Request.id).join).getD .null),
             ("error", .obj [("code", .num code), ("message", .str message)])]).stringify

/-!  REPL adapter (src/session/repl-protocol.ts). -/

/-- Commands that are REPL-local (never dispatched to the session). -/
def LOCAL_COMMANDS : List String :=
  ["help", "h", "?",
   "watch", "w",
   "build", "b",
   "config", "cfg",
   "clear", "cls",
   "exit", "quit", "q",
   "open", "o", "goto"]

/-- `parseDotCommand`: split a dot-command into name and remainder at the first
space (`input.indexOf(' ')`; when the index is not positive the whole tail is
the name and the remainder is empty), lowercasing the name
(`name.toLowerCase()`, modelled with the ASCII `Char.toLower`). -/
def parseDotCommand (input : String) : String × String :=
  let cs := input.data
  match cs.findIdx? (fun c => c = ' ') with
  | some i =>
    if i > 0 then
      (String.mk (((cs.drop 1).take (i - 1)).map Char.toLower), String.mk (cs.drop (i + 1)))
    else (String.mk ((cs.drop 1).map Char.toLower), "")
  | none => (String.mk ((cs.drop 1).map Char.toLower), "")

/-- `DISPATCH_MAP`: the *own* entries of the object literal in
repl-protocol.ts — dot-command names (and aliases) to request builders.  The
JS bracket access `DISPATCH_MAP[name]` is modelled by `DISPATCH_MAP_get`
below, which also walks the prototype chain. -/
def DISPATCH_MAP (name : String) : Option (String → Request) :=
  if name = "tabs" then some (fun _ => ⟨none, "tabs", []⟩)
  else if name = "t" then some (fun _ => ⟨none, "tabs", []⟩)
  else if name = "pages" then some (fun _ => ⟨none, "tabs", []⟩)
  else if name = "tab" then some (fun args => ⟨none, "selectTab", [("pattern", .str (jsTrim args))]⟩)
  else if name = "select" then some (fun args => ⟨none, "selectTab", [("pattern", .str (jsTrim args))]⟩)
  else if name = "inject" then some (fun args => ⟨none, "inject", [("ref", .str (jsTrim args))]⟩)
  else if name = "i" then some (fun args => ⟨none, "inject", [("ref", .str (jsTrim args))]⟩)
  else if name = "load" then some (fun args => ⟨none, "inject", [("ref", .str (jsTrim args))]⟩)
  else if name = "reload" then some (fun _ => ⟨none, "reload", []⟩)
  else if name = "r" then some (fun _ => ⟨none, "reload", []⟩)
  else none

/-- What the JS bracket access `DISPATCH_MAP[name]` can yield: an own entry of
the object literal (a request builder), or — walking the prototype chain — an
inherited member of `Object.prototype`.  `parse` only looks names up after
`parseDotCommand` has lowercased them, and the only all-lowercase members of
`Object.prototype` are `constructor` (the `Object` function, which is callable
and boxes its argument) and the `__proto__` accessor (which yields
`Object.prototype` itself, an object that is not callable). -/
inductive DispatchHit where
  | builder (b : String → Request)
  | protoCtor
  | protoObj
  | miss

/-- The JS property access `DISPATCH_MAP[name]` on the object literal: own
properties first, then the `Object.prototype` members reachable through a
lowercased name. -/
def DISPATCH_MAP_get (name : String) : DispatchHit :=
  match DISPATCH_MAP name with
  | some b => .builder b
  | none =>
    if name = "constructor" then .protoCtor
    else if name = "__proto__" then .protoObj
    else .miss

/-- Adapter-local state of the REPL protocol: the configured default language
and the last injected script reference (`lastInjectRef`, mutated by `parse`). -/
structure ReplProtocol where
  lang : String
  lastInjectRef : Option String
deriving Repr

/-- How a `ReplProtocol.parse` call ends: a normal return (`null`, a
`ProtocolError` or a `Request`, as `ParseOutcome`), the non-Request return
value `Object(args)` — a boxed string with no `method` field — produced when
the inherited `Object` constructor is found at the name `constructor`, or the
`TypeError` thrown when the non-callable value found at `__proto__` is
invoked. -/
inductive ReplParseResult where
  | out (o : ParseOutcome)
  | boxed (args : String)
  | thrown
deriving Repr

/-- `ReplProtocol.parse`, with the `this` mutation made explicit: returns the
updated adapter state alongside the result.  Blank input skips; local
dot-commands skip (handled by `handleLocal`); a dot-command whose bracket
lookup finds an own builder builds a request (an `inject`-family command with
non-blank remainder also records `lastInjectRef`); a lookup hitting the
inherited `Object` constructor calls it and returns the boxed argument, whose
`method` is `undefined`, so no mutation happens; a lookup hitting the
`__proto__` accessor calls a non-function and throws before any mutation;
unknown dot-commands yield a `ProtocolError`; anything else becomes an `eval`
request with the configured language tag. -/
def ReplProtocol.parse (self : ReplProtocol) (input : String) : ReplProtocol × ReplParseResult :=
  let trimmed := jsTrim input
  if trimmed = "" then (self, .out .skip)
  else if jsStartsWith trimmed "." then
    let nc := parseDotCommand trimmed
    if nc.1 ∈ LOCAL_COMMANDS then (self, .out .skip)
    else
      match DISPATCH_MAP_get nc.1 with
      | .builder builder =>
        let request := builder nc.2
        if request.method = "inject" ∧ jsTrim nc.2 ≠ "" then
          (⟨self.lang, some (jsTrim nc.2)⟩, .out (.req request))
        else (self, .out (.req request))
      | .protoCtor => (self, .boxed nc.2)
      | .protoObj => (self, .thrown)
      | .miss =>
        (self, .out (.err ⟨-1,
          "Unknown command: ." ++ nc.1 ++ "\nType .help for available commands", none⟩))
  else (self, .out (.req ⟨none, "eval", [("code", .str trimmed), ("lang", .str self.lang)]⟩))

/-!  Typed errors (src/errors.ts) and connection resilience
(src/chrome/resilience.ts). -/

/-- Classification of a connection failure (`ConnectFailure`). -/
inductive ConnectFailure where
  | hostSkip
  | transient
  | fatal
deriving Repr, DecidableEq

/-- A JS thrown value as inspected by `classifyConnectError`: an `Error`
carrying a message, or any other value together with its `String(err)`
rendering. -/
inductive JsErrVal where
  | err (message : String)
  | nonErr (stringified : String)
deriving Repr

/-- The message text `classifyConnectError` inspects:
`err instanceof Error ? err.message : String(err)`. -/
def jsErrMessage : JsErrVal → String
  | .err m => m
  | .nonErr s => s

/-- `classifyConnectError` (resilience.ts lines 28–47): lowercase the message;
EPERM / ECONNREFUSED → skip to the next host; timeouts and transient network
issues → retry the same host; everything else is fatal. -/
def classifyConnectError (e : JsErrVal) : ConnectFailure :=
  let message := jsToLower (jsErrMessage e)
  if containsSub "eperm" message || containsSub "econnrefused" message then .hostSkip
  else if containsSub "timeout" message || containsSub "econnreset" message
      || containsSub "enotfound" message || containsSub "ehostunreach" message then .transient
  else .fatal

/-- `ResilienceOptions`, with the optional fields kept optional (defaults are
applied inside `connectWithResilience` via `??`). -/
structure ResilienceOptions where
  host : String
  port : Nat
  retriesOpt : Option Nat
  retryDelayMsOpt : Option Nat
  fallbackHostsOpt : Option (List String)
deriving Repr

def DEFAULTS_retries : Nat := 3
def DEFAULTS_retryDelayMs : Nat := 500
def DEFAULTS_backoffFactor : Nat := 2

/-- Observable events of one `connectWithResilience` run: a failed connection
attempt (with its classification), a backoff sleep, or a successful
connection.  Hosts are identified by their position in the host sequence so
that duplicate host names stay distinguishable. -/
inductive REvent where
  | attemptFail (hostIdx : Nat) (host : String) (attemptIdx : Nat) (msg : String)
      (cls : ConnectFailure)
  | slept (ms : Nat)
  | connected (hostIdx : Nat) (attemptIdx : Nat)
deriving Repr, DecidableEq

/-- `ConnectionError` from errors.ts: the `CjigError` superclass fields are
filled with `('connection', retryable := true, exitCode := 2)`. -/
structure ConnectionError where
  message : String
  host : String
  port : Nat
  category : String
  retryable : Bool
  exitCode : Nat
deriving Repr, DecidableEq

/-- The `ConnectionError` constructor. -/
def mkConnectionError (message : String) (host : String) (port : Nat) : ConnectionError :=
  ⟨message, host, port, "connection", true, 2⟩

/-- Final outcome of `connectWithResilience`: a connection (identified by the
host position and attempt that succeeded), a re-raised fatal error (the
underlying message, unwrapped), or the aggregated `ConnectionError`. -/
inductive RResult where
  | ok (hostIdx : Nat) (attemptIdx : Nat)
  | fatalErr (msg : String)
  | connErr (e : ConnectionError)
deriving Repr, DecidableEq

/-- Outcome of the per-host attempt loop. -/
inductive HostOutcome where
  | connected (attemptIdx : Nat)
  | aborted (msg : String)
  | moveOn
deriving Repr, DecidableEq

/-- The inner `for (let attempt = 0; attempt <= retries; attempt++)` loop of
`connectWithResilience`, for one host.  `env hostIdx attempt` is the outcome of
`new ChromeConnection(...).connect()` for that attempt (`none` = success,
`some msg` = rejection with an error whose message is `msg`).  Returns the
event trace, the summary lines pushed onto `attempts`, and the loop outcome.
The fuel argument starts at `retries + 1` (as many iterations as the `for`
loop can make); `delay` starts at the initial delay and is doubled after each
retried transient failure (`delay *= DEFAULTS.backoffFactor`). -/
def connAttemptLoop (env : Nat → Nat → Option String) (hostIdx : Nat) (host : String)
    (port retries : Nat) : Nat → Nat → Nat → List REvent × List String × HostOutcome
  | 0, _, _ => ([], [], .moveOn)
  | fuel + 1, attempt, delay =>
    match env hostIdx attempt with
    | none => ([.connected hostIdx attempt], [], .connected attempt)
    | some msg =>
      let summary := host ++ ":" ++ toString port ++ " attempt " ++ toString (attempt + 1)
          ++ ": " ++ msg
      match classifyConnectError (.err msg) with
      | .fatal => ([.attemptFail hostIdx host attempt msg .fatal], [summary], .aborted msg)
      | .hostSkip => ([.attemptFail hostIdx host attempt msg .hostSkip], [summary], .moveOn)
      | .transient =>
        if attempt < retries then
          let res := connAttemptLoop env hostIdx host port retries fuel (attempt + 1)
            (delay * DEFAULTS_backoffFactor)
          (.attemptFail hostIdx host attempt msg .transient :: .slept delay :: res.1,
           summary :: res.2.1, res.2.2)
        else ([.attemptFail hostIdx host attempt msg .transient], [summary], .moveOn)

/-- The outer `for (const host of hosts)` loop of `connectWithResilience`:
`inl (hostIdx, attempt)` is a successful connection, `inr msg` a fatal abort,
`none` exhaustion of every host. -/
def connHostsLoop (env : Nat → Nat → Option String) (port retries initialDelay : Nat) :
    List String → Nat → List REvent × List String × Option (Sum (Nat × Nat) String)
  | [], _ => ([], [], none)
  | host :: restHosts, hostIdx =>
    match connAttemptLoop env hostIdx host port retries (retries + 1) 0 initialDelay with
    | (evs, sums, .connected a) => (evs, sums, some (.inl (hostIdx, a)))
    | (evs, sums, .aborted msg) => (evs, sums, some (.inr msg))
    | (evs, sums, .moveOn) =>
      let res := connHostsLoop env port retries initialDelay restHosts (hostIdx + 1)
      (evs ++ res.1, sums ++ res.2.1, res.2.2)

/-- `connectWithResilience` (resilience.ts lines 64–106): defaults applied with
`??`, hosts iterated as `[options.host, ...fallbackHosts]`, and on exhaustion a
single `ConnectionError` whose message is the newline-joined numbered attempt
summary (`attempts.join('\n  ')` after the header line). -/
def connectWithResilience (env : Nat → Nat → Option String) (options : ResilienceOptions) :
    List REvent × RResult :=
  let retries := options.retriesOpt.getD DEFAULTS_retries
  let initialDelay := options.retryDelayMsOpt.getD DEFAULTS_retryDelayMs
  let hosts := options.host :: (options.fallbackHostsOpt.getD [])
  match connHostsLoop env options.port retries initialDelay hosts 0 with
  | (evs, _, some (.inl (hi, a))) => (evs, .ok hi a)
  | (evs, _, some (.inr msg)) => (evs, .fatalErr msg)
  | (evs, sums, none) =>
    (evs, .connErr (mkConnectionError
      ("Failed to connect after " ++ toString sums.length ++ " attempts:\n  "
        ++ String.intercalate "\n  " sums)
      options.host options.port))

/-- Modelled from the spec (claim C2 wording), per-host part: for every host,
attempt up to `retries + 1` connection attempts.  An attempt whose error
classifies as host-skip causes no further attempts on that host.  An attempt
whose error classifies as transient is followed by a sleep of the current
delay — which starts at `retryDelayMs` and doubles after each failed attempt,
i.e. the sleep after attempt `a` (0-based) is `retryDelayMs * 2 ^ a` — and a
retry of the same host, unless the `retries + 1` attempt budget is exhausted.
An attempt whose error classifies as fatal aborts the whole procedure,
re-raising the underlying error unwrapped. -/
def specAttemptLoop (env : Nat → Nat → Option String) (hostIdx : Nat) (host : String)
    (port retries delay0 : Nat) : Nat → Nat → List REvent × List String × HostOutcome
  | 0, _ => ([], [], .moveOn)
  | fuel + 1, attempt =>
    match env hostIdx attempt with
    | none => ([.connected hostIdx attempt], [], .connected attempt)
    | some msg =>
      let summary := host ++ ":" ++ toString port ++ " attempt " ++ toString (attempt + 1)
          ++ ": " ++ msg
      match classifyConnectError (.err msg) with
      | .fatal => ([.attemptFail hostIdx host attempt msg .fatal], [summary], .aborted msg)
      | .hostSkip => ([.attemptFail hostIdx host attempt msg .hostSkip], [summary], .moveOn)
      | .transient =>
        if attempt < retries then
          let res := specAttemptLoop env hostIdx host port retries delay0 fuel (attempt + 1)
          (.attemptFail hostIdx host attempt msg .transient
             :: .slept (delay0 * 2 ^ attempt) :: res.1,
           summary :: res.2.1, res.2.2)
        else ([.attemptFail hostIdx host attempt msg .transient], [summary], .moveOn)

/-- Modelled from the spec (claim C2 wording), host-sequence part: hosts are
tried in order `[primary, ...fallbacks]`; a host-skip moves to the next host
immediately (no sleep in between); a fatal abort stops the whole procedure. -/
def specHostsLoop (env : Nat → Nat → Option String) (port retries initialDelay : Nat) :
    List String → Nat → List REvent × List String × Option (Sum (Nat × Nat) String)
  | [], _ => ([], [], none)
  | host :: restHosts, hostIdx =>
    match specAttemptLoop env hostIdx host port retries initialDelay (retries + 1) 0 with
    | (evs, sums, .connected a) => (evs, sums, some (.inl (hostIdx, a)))
    | (evs, sums, .aborted msg) => (evs, sums, some (.inr msg))
    | (evs, sums, .moveOn) =>
      let res := specHostsLoop env port retries initialDelay restHosts (hostIdx + 1)
      (evs ++ res.1, sums ++ res.2.1, res.2.2)

/-- Modelled from the spec (claim C2 wording): the whole resilience procedure
with closed-form backoff delays. -/
def specConnectWithResilience (env : Nat → Nat → Option String)
    (options : ResilienceOptions) : List REvent × RResult :=
  let retries := options.retriesOpt.getD DEFAULTS_retries
  let initialDelay := options.retryDelayMsOpt.getD DEFAULTS_retryDelayMs
  let hosts := options.host :: (options.fallbackHostsOpt.getD [])
  match specHostsLoop env options.port retries initialDelay hosts 0 with
  | (evs, _, some (.inl (hi, a))) => (evs, .ok hi a)
  | (evs, _, some (.inr msg)) => (evs, .fatalErr msg)
  | (evs, sums, none) =>
    (evs, .connErr (mkConnectionError
      ("Failed to connect after " ++ toString sums.length ++ " attempts:\n  "
        ++ String.intercalate "\n  " sums)
      options.host options.port))

/-- The summary line the exhaustion error records for one failed attempt, as a
function of the failure event: `host:port attempt n: message` with 1-based
attempt numbering. -/
def failSummaryLine (port : Nat) (hostName : String) (attemptIdx : Nat) (msg : String) :
    String :=
  hostName ++ ":" ++ toString port ++ " attempt " ++ toString (attemptIdx + 1) ++ ": " ++ msg

/-- The failed attempts recorded in a resilience trace, rendered as summary
lines in trace order. -/
def failSummaries (port : Nat) (evs : List REvent) : List String :=
  evs.filterMap (fun e =>
    match e with
    | .attemptFail _ h a m _ => some (failSummaryLine port h a m)
    | _ => none)

/-!  Bencode and the nREPL framing loop (src/nrepl/server.ts). -/

/-- A bencoded value: integers, byte strings, lists and dictionaries (the
dictionary is kept as an association list in wire order; byte strings are
lists of byte values). -/
inductive BValue where
  | int : Int → BValue
  | str : List Nat → BValue
  | list : List BValue → BValue
  | dict : List (List Nat × BValue) → BValue
deriving Repr

/-- Decimal ASCII digit codes of a natural number, most significant first. -/
def natDigitsB (n : Nat) : List Nat :=
  if h : n < 10 then [48 + n]
  else natDigitsB (n / 10) ++ [48 + n % 10]
termination_by n
decreasing_by exact Nat.div_lt_self (by omega) (by omega)

/-- ASCII bytes of an integer in decimal (code 45 is the minus sign). -/
def intBytesB (n : Int) : List Nat :=
  if n < 0 then 45 :: natDigitsB n.natAbs else natDigitsB n.toNat

mutual
/-- `bencode.encode`: `i<n>e` for integers, `<len>:<bytes>` for strings,
`l...e` for lists, `d...e` for dictionaries (codes 105 = i, 101 = e, 58 = :,
108 = l, 100 = d). -/
def benc : BValue → List Nat
  | .int n => 105 :: (intBytesB n ++ [101])
  | .str s => natDigitsB s.length ++ 58 :: s
  | .list xs => 108 :: (bencItems xs ++ [101])
  | .dict es => 100 :: (bencEntries es ++ [101])
/-- Concatenated encodings of list elements. -/
def bencItems : List BValue → List Nat
  | [] => []
  | x :: xs => benc x ++ bencItems xs
/-- Concatenated encodings of dictionary entries (key string, then value). -/
def bencEntries : List (List Nat × BValue) → List Nat
  | [] => []
  | (k, v) :: es => natDigitsB k.length ++ 58 :: (k ++ (benc v ++ bencEntries es))
end

/-- Byte-level decimal digit test (codes 48–57). -/
def isDigitByte (b : Nat) : Bool := 48 ≤ b && b ≤ 57

/-- Greedy decimal accumulator over bytes. -/
def readDigitsByteGo (acc : Nat) : List Nat → Nat × List Nat
  | [] => (acc, [])
  | b :: rest =>
    if isDigitByte b then readDigitsByteGo (acc * 10 + (b - 48)) rest
    else (acc, b :: rest)

/-- Reads a non-empty run of decimal digit bytes from the front. -/
def readDigitsByte (bs : List Nat) : Option (Nat × List Nat) :=
  match bs with
  | [] => none
  | b :: _ => if isDigitByte b then some (readDigitsByteGo 0 bs) else none

mutual
/-- Fuel-indexed model of `bencode.decode` reading one value from the front of
a buffer: returns the decoded value and the unconsumed suffix, or `none` when
the buffer holds no complete value (the library throws in that case). -/
def bdecF : Nat → List Nat → Option (BValue × List Nat)
  | 0, _ => none
  | _ + 1, [] => none
  | fuel + 1, b :: rest =>
    if b = 105 then
      match rest with
      | 45 :: rest2 =>
        match readDigitsByte rest2 with
        | some (m, 101 :: r) => some (.int (-(m : Int)), r)
        | _ => none
      | _ =>
        match readDigitsByte rest with
        | some (m, 101 :: r) => some (.int (m : Int), r)
        | _ => none
    else if b = 108 then
      (bdecItemsF fuel rest).map (fun p => (.list p.1, p.2))
    else if b = 100 then
      (bdecEntriesF fuel rest).map (fun p => (.dict p.1, p.2))
    else if isDigitByte b then
      match readDigitsByte (b :: rest) with
      | some (len, 58 :: r) =>
        if len ≤ r.length then some (.str (r.take len), r.drop len) else none
      | _ => none
    else none
/-- List elements until the closing `e`. -/
def bdecItemsF : Nat → List Nat → Option (List BValue × List Nat)
  | 0, _ => none
  | _ + 1, [] => none
  | fuel + 1, b :: rest =>
    if b = 101 then some ([], rest)
    else
      match bdecF fuel (b :: rest) with
      | some (v, r2) => (bdecItemsF fuel r2).map (fun p => (v :: p.1, p.2))
      | none => none
/-- Dictionary entries until the closing `e`. -/
def bdecEntriesF : Nat → List Nat → Option (List (List Nat × BValue) × List Nat)
  | 0, _ => none
  | _ + 1, [] => none
  | fuel + 1, b :: rest =>
    if b = 101 then some ([], rest)
    else
      match readDigitsByte (b :: rest) with
      | some (len, 58 :: r) =>
        if len ≤ r.length then
          match bdecF fuel (r.drop len) with
          | some (v, r2) =>
            (bdecEntriesF fuel r2).map (fun p => ((r.take len, v) :: p.1, p.2))
          | none => none
        else none
      | _ => none
end

/-- One `bencode.decode` call on a buffer (fuel instantiated large enough for
any value the buffer can hold). -/
def bdec (bs : List Nat) : Option (BValue × List Nat) := bdecF (bs.length + 1) bs

/-- The drain loop of the nREPL socket `data` handler (server.ts lines 83–104):
repeatedly decode one value from the front of the buffer; on success compute
the consumed byte count by re-encoding the decoded value and slice it off; on
failure (incomplete data) stop and keep the buffer.  Returns the decoded
messages in order and the remaining buffer. -/
def nreplDrain : Nat → List Nat → List BValue × List Nat
  | 0, buffer => ([], buffer)
  | fuel + 1, buffer =>
    if buffer.length = 0 then ([], buffer)
    else
      match bdec buffer with
      | none => ([], buffer)
      | some (decoded, _) =>
        let consumed := (benc decoded).length
        let res := nreplDrain fuel (buffer.drop consumed)
        (decoded :: res.1, res.2)

/-- One socket `data` event: append the chunk to the buffer, then drain. -/
def nreplFeed (buffer chunk : List Nat) : List BValue × List Nat :=
  let buf := buffer ++ chunk
  nreplDrain (buf.length + 1) buf

/-!  Session dispatcher (src/session/session.ts). -/

/-- A method handler as the dispatcher observes it, with the connection and
config references pre-applied (they are opaque capabilities here): it either
resolves to a value (`none` modelling a JS `undefined` resolution) or rejects;
a rejection is carried as the message string the dispatcher extracts
(`err instanceof Error ? err.message : String(err)`). -/
def MethodHandler : Type := List (String × Json) → Except String (Option Json)

/-- A `Protocol` instance as the session consumes it: `parse`, the two
formatters, and the optional `handleLocal` (with the printed-output collection
already folded into its returned string; `none` result models the JS `null`
fall-through to dispatch). -/
structure ProtocolImpl where
  parse : String → ParseOutcome
  formatResult : Request → Option Json → String
  formatError : Option Request → Int → String → String
  handleLocal : Option (String → Option String)

/-- The protocol-local step of `Session.handleLine`: runs only when the
protocol defines `handleLocal` and the session was given a `localContext`. -/
def localStep (handleLocal : Option (String → Option String))
    (localContextPresent : Bool) (line : String) : Option String :=
  match (if localContextPresent then handleLocal else none) with
  | some hl => hl line
  | none => none

/-- `Session.handleLine` (session.ts lines 173–214): the list of lines written
to the output stream for one input line.  The local step may short-circuit
(writing its result only when truthy); a `null` parse is skipped; a
`ProtocolError` is formatted with `formatError(null, ...)`; an unknown method
yields `formatError(parsed, -32601, ...)`; a handler result is formatted and
written when truthy; a handler rejection is caught and written via
`formatError(parsed, -32603, message)`.  The function is total: no branch
propagates an error to the caller. -/
def sessionHandleLine (protocol : ProtocolImpl) (methods : String → Option MethodHandler)
    (localContextPresent : Bool) (line : String) : List String :=
  match localStep protocol.handleLocal localContextPresent line with
  | some localResult => if localResult ≠ "" then [localResult] else []
  | none =>
    match protocol.parse line with
    | .skip => []
    | .err e => [protocol.formatError none e.code e.message]
    | .req parsed =>
      match methods parsed.method with
      | none =>
        [protocol.formatError (some parsed) METHOD_NOT_FOUND
          ("Unknown method: " ++ parsed.method)]
      | some handler =>
        match handler parsed.params with
        | .ok result =>
          let formatted := protocol.formatResult parsed result
          if formatted ≠ "" then [formatted] else []
        | .error message =>
          [protocol.formatError (some parsed) INTERNAL_ERROR message]

/-!  Event-loop model of `Session.start()` over a piped input stream.

`start()` wires a readline interface over the input stream, attaches an async
`'line'` listener that awaits `handleLine`, and returns
`new Promise((resolve) => this.rl?.on('close', resolve))` — the returned
completion promise is resolved by the readline `'close'` event alone; the
session keeps no count of in-flight handler invocations.  For a piped input
that is written and then closed, Node delivers all `'line'` events and then
`'close'` as stream events, well before any `setTimeout` timer armed by a
handler fires; an async `'line'` listener's promise is ignored by the event
emitter.  The model below replays exactly that schedule. -/

/-- Observable events of a session run: handler `i` settled, response `i`
written, and the `start()` completion promise resolved. -/
inductive SEvent where
  | settled (i : Nat)
  | wrote (i : Nat)
  | completed
deriving Repr, DecidableEq

/-- A macrotask of the stream phase: line `i` arrives (its handler starts and
suspends on a timer of the given positive delay), or the stream closes. -/
inductive NodeTask where
  | lineEv (i : Nat) (delay : Nat)
  | closeEv
deriving Repr

/-- Insert a timer into a due-time-ordered pending list, after earlier timers
with the same due time (`setTimeout` ordering). -/
def insertTimer (t : Nat × Nat) : List (Nat × Nat) → List (Nat × Nat)
  | [] => [t]
  | u :: us => if t.1 < u.1 then t :: u :: us else u :: insertTimer t us

/-- Stream phase: the queued readline events run in order.  A `line` event
starts its handler, which schedules a settle timer; the `close` event runs the
`'close'` listeners — in `Session.start` that resolves the completion
promise. -/
def sessionStreamPhase : List NodeTask → List (Nat × Nat) → List SEvent × List (Nat × Nat)
  | [], timers => ([], timers)
  | .lineEv i d :: rest, timers => sessionStreamPhase rest (timers ++ [(d, i)])
  | .closeEv :: rest, timers =>
    let res := sessionStreamPhase rest timers
    (SEvent.completed :: res.1, res.2)

/-- Timer phase: pending settle timers fire in due-time order; a handler's
settlement is followed synchronously by its formatted response write. -/
def sessionTimerPhase (timers : List (Nat × Nat)) : List SEvent :=
  ((timers.foldl (fun acc t => insertTimer t acc) []).map
    (fun t => [SEvent.settled t.2, SEvent.wrote t.2])).flatten

/-- Model of `Session.start()` on `delays.length` piped lines followed by EOF,
line `i`'s handler resolving after `delays[i] ≥ 1` timer ticks: the observable
event trace. -/
def sessionRun (delays : List Nat) : List SEvent :=
  let tasks := (delays.enum.map (fun p => NodeTask.lineEv p.1 p.2)) ++ [NodeTask.closeEv]
  let res := sessionStreamPhase tasks []
  res.1 ++ sessionTimerPhase res.2

/-!  Statement helpers: the envelope conditions of the JSON-RPC validation
chain, as boolean observations on the parsed value. -/

/-- Is the `jsonrpc` field present and equal to the literal string "2.0"? -/
def jrpcVersionOk (j : Json) : Bool :=
  match jGet j "jsonrpc" with
  | some (.str "2.0") => true
  | _ => false

/-- The `method` field when it is a non-empty string, `none` when it is
missing, empty, or not a string. -/
def jrpcMethodOf (j : Json) : Option String :=
  match jGet j "method" with
  | some (.str m) => if m = "" then none else some m
  | _ => none

/-- Is the `params` field present but not a non-array object? -/
def jrpcParamsBad (j : Json) : Bool :=
  match jGet j "params" with
  | none => false
  | some (.obj _) => false
  | some _ => true

/-- The `params` field as a mapping, defaulting to the empty mapping. -/
def jrpcParamsOrEmpty (j : Json) : List (String × Json) :=
  match jGet j "params" with
  | some (.obj ps) => ps
  | _ => []

/-!  ### Theorems -/

/-- Claim C1 (code bug evidence).  The spec requires `start()`'s completion
signal to fire only after every handler invocation begun while the stream was
open has settled, with all N formatted response lines written (the repo's own
session test asserts exactly this order).  Evaluating the embedded
`Session.start` event schedule shows the opposite: with one piped line whose
handler resolves after 50 ticks — and likewise with three piped lines with
delays 20 — the completion signal is the *first* observable event, before any
handler settles or any response line is written, because session.ts resolves
the returned promise on the readline `'close'` event and keeps no in-flight
count. -/
theorem c1_completion_fires_before_handlers_settle :
    sessionRun [50] = [SEvent.completed, SEvent.settled 0, SEvent.wrote 0] ∧
    sessionRun [20, 20, 20] =
      [SEvent.completed, SEvent.settled 0, SEvent.wrote 0, SEvent.settled 1,
       SEvent.wrote 1, SEvent.settled 2, SEvent.wrote 2] ∧
    sessionRun [] = [SEvent.completed] := by
  refine ⟨rfl, rfl, rfl⟩

/-- Claim C9.  `classifyConnectError` matches case-insensitively on the
(lowercased) message: a message containing `eperm` or `econnrefused` is
`host-skip` even when it also contains a transient keyword; a message with a
transient keyword (`timeout`, `econnreset`, `enotfound`, `ehostunreach`) but
no host-skip keyword is `transient`; anything else — non-`Error` values being
stringified first — is `fatal`. -/
theorem c9_classify_connect_error_order (e : JsErrVal) :
    (containsSub "eperm" (jsToLower (jsErrMessage e)) = true ∨
     containsSub "econnrefused" (jsToLower (jsErrMessage e)) = true →
       classifyConnectError e = ConnectFailure.hostSkip) ∧
    (containsSub "eperm" (jsToLower (jsErrMessage e)) = false →
     containsSub "econnrefused" (jsToLower (jsErrMessage e)) = false →
     (containsSub "timeout" (jsToLower (jsErrMessage e)) = true ∨
      containsSub "econnreset" (jsToLower (jsErrMessage e)) = true ∨
      containsSub "enotfound" (jsToLower (jsErrMessage e)) = true ∨
      containsSub "ehostunreach" (jsToLower (jsErrMessage e)) = true) →
       classifyConnectError e = ConnectFailure.transient) ∧
    (containsSub "eperm" (jsToLower (jsErrMessage e)) = false →
     containsSub "econnrefused" (jsToLower (jsErrMessage e)) = false →
     containsSub "timeout" (jsToLower (jsErrMessage e)) = false →
     containsSub "econnreset" (jsToLower (jsErrMessage e)) = false →
     containsSub "enotfound" (jsToLower (jsErrMessage e)) = false →
     containsSub "ehostunreach" (jsToLower (jsErrMessage e)) = false →
       classifyConnectError e = ConnectFailure.fatal) := by
  unfold classifyConnectError
  refine ⟨?_, ?_, ?_⟩
  · rintro (h | h) <;> simp [h]
  · intro h1 h2 h3
    rcases h3 with h | h | h | h <;> simp [h1, h2, h]
  · intro h1 h2 h3 h4 h5 h6
    simp [h1, h2, h3, h4, h5, h6]

/-- Witness for C9: a message containing both a host-skip keyword and a
transient keyword classifies as host-skip (checked at a concrete input). -/
theorem c9_classify_connect_error_order_witness :
    classifyConnectError (.err "ECONNREFUSED after a TIMEOUT") =
      ConnectFailure.hostSkip :=
  (c9_classify_connect_error_order (.err "ECONNREFUSED after a TIMEOUT")).1
    (Or.inr (by decide))

/-- A list starts with itself followed by anything. -/
theorem listStartsWithB_self_append (xs ys : List Char) :
    listStartsWithB xs (xs ++ ys) = true := by
  induction xs with
  | nil => rfl
  | cons a as_ ih => simp [listStartsWithB, ih]

/-- A contiguous segment planted between two other segments is found. -/
theorem listContainsSeg_plant (pre needle post : List Char) :
    listContainsSeg needle (pre ++ (needle ++ post)) = true := by
  induction pre with
  | nil =>
    cases needle with
    | nil =>
      cases post with
      | nil => rfl
      | cons c r => simp [listContainsSeg, listStartsWithB]
    | cons n ns =>
      have h := listStartsWithB_self_append (n :: ns) post
      simp only [List.cons_append] at h
      simp [listContainsSeg, h]
  | cons p ps ih => simp [listContainsSeg, ih]

/-- An own dispatch entry is what the bracket access finds. -/
theorem DISPATCH_MAP_get_own (name : String) (b : String → Request)
    (h : DISPATCH_MAP name = some b) : DISPATCH_MAP_get name = .builder b := by
  unfold DISPATCH_MAP_get
  rw [h]

/-- A name with no own entry that is not an inherited `Object.prototype`
member misses entirely. -/
theorem DISPATCH_MAP_get_none (name : String)
    (h : DISPATCH_MAP name = none)
    (hc : name ≠ "constructor") (hp : name ≠ "__proto__") :
    DISPATCH_MAP_get name = .miss := by
  unfold DISPATCH_MAP_get
  rw [h]
  dsimp only
  rw [if_neg hc, if_neg hp]

/-- The name `constructor` (no own entry) finds the inherited constructor. -/
theorem DISPATCH_MAP_get_ctor (name : String) (hc : name = "constructor") :
    DISPATCH_MAP_get name = .protoCtor := by
  rw [hc]
  rfl

/-- The name `__proto__` (no own entry) finds the prototype accessor. -/
theorem DISPATCH_MAP_get_proto (name : String) (hp : name = "__proto__") :
    DISPATCH_MAP_get name = .protoObj := by
  rw [hp]
  rfl

/-- Claim C7 counterexample.  Two divergences from the claimed behaviour:
(i) the adapter lowercases the command name, so for the typed command
`.FooBar` the error message mentions `.foobar` and does not contain `FooBar`
as typed; (ii) the JS bracket access `DISPATCH_MAP[name]` walks the prototype
chain, so for `.constructor` — a name in neither table as written — `parse`
returns the boxed value `Object('')` instead of a `ProtocolError`, and for
`.__proto__` it throws instead of returning at all. -/
theorem c7_counterexample_unknown_command :
    (ReplProtocol.parse ⟨"js", none⟩ ".FooBar").2 =
      .out (.err ⟨-1, "Unknown command: .foobar\nType .help for available commands", none⟩) ∧
    containsSub "FooBar"
      "Unknown command: .foobar\nType .help for available commands" = false ∧
    DISPATCH_MAP "constructor" = none ∧
    "constructor" ∉ LOCAL_COMMANDS ∧
    (ReplProtocol.parse ⟨"js", none⟩ ".constructor").2 = .boxed "" ∧
    DISPATCH_MAP "__proto__" = none ∧
    "__proto__" ∉ LOCAL_COMMANDS ∧
    (ReplProtocol.parse ⟨"js", none⟩ ".__proto__").2 = .thrown := by
  exact ⟨rfl, by decide, rfl, by decide, rfl, rfl, by decide, rfl⟩

/-- Claim C7 (amended: the error message contains the *lowercased* command
name — the name matched case-insensitively — rather than the name exactly as
typed, and the command name must also avoid the two `Object.prototype` names
`constructor` and `__proto__`, which the dispatch lookup finds on the
prototype chain).  For every non-blank input whose trimmed form begins with
`.` and whose (lowercased) command name is in neither the local-command table
nor the dispatch table and is neither inherited name, `parse` returns a
`ProtocolError` whose message contains `.<name>` and the help hint `.help`. -/
theorem c7_unknown_dot_command_error (st : ReplProtocol) (input : String)
    (h1 : jsTrim input ≠ "")
    (h2 : jsStartsWith (jsTrim input) "." = true)
    (h3 : (parseDotCommand (jsTrim input)).1 ∉ LOCAL_COMMANDS)
    (h4 : DISPATCH_MAP (parseDotCommand (jsTrim input)).1 = none)
    (h5 : (parseDotCommand (jsTrim input)).1 ≠ "constructor")
    (h6 : (parseDotCommand (jsTrim input)).1 ≠ "__proto__") :
    (ReplProtocol.parse st input).2 =
      .out (.err ⟨-1, "Unknown command: ." ++ (parseDotCommand (jsTrim input)).1
        ++ "\nType .help for available commands", none⟩) ∧
    containsSub ("." ++ (parseDotCommand (jsTrim input)).1)
      ("Unknown command: ." ++ (parseDotCommand (jsTrim input)).1
        ++ "\nType .help for available commands") = true ∧
    containsSub ".help"
      ("Unknown command: ." ++ (parseDotCommand (jsTrim input)).1
        ++ "\nType .help for available commands") = true := by
  refine ⟨?_, ?_, ?_⟩
  · unfold ReplProtocol.parse
    rw [if_neg h1, if_pos h2, if_neg h3, DISPATCH_MAP_get_none _ h4 h5 h6]
  · show listContainsSeg _ _ = true
    have hdata : ("Unknown command: ." ++ (parseDotCommand (jsTrim input)).1
        ++ "\nType .help for available commands").data =
        "Unknown command: ".data ++ (("." ++ (parseDotCommand (jsTrim input)).1).data
          ++ "\nType .help for available commands".data) := by
      simp [String.data_append]
    rw [hdata]
    exact listContainsSeg_plant _ _ _
  · show listContainsSeg _ _ = true
    have hdata : ("Unknown command: ." ++ (parseDotCommand (jsTrim input)).1
        ++ "\nType .help for available commands").data =
        ("Unknown command: .".data ++ (parseDotCommand (jsTrim input)).1.data
          ++ "\nType ".data) ++ (".help".data ++ " for available commands".data) := by
      simp [String.data_append]
    rw [hdata]
    exact listContainsSeg_plant _ _ _

/-- Witness for C7's amended theorem at the concrete input `.FooBar`. -/
theorem c7_unknown_dot_command_error_witness :
    (ReplProtocol.parse ⟨"js", none⟩ ".FooBar").2 =
      .out (.err ⟨-1, "Unknown command: ." ++ (parseDotCommand (jsTrim ".FooBar")).1
        ++ "\nType .help for available commands", none⟩) ∧
    containsSub ("." ++ (parseDotCommand (jsTrim ".FooBar")).1)
      ("Unknown command: ." ++ (parseDotCommand (jsTrim ".FooBar")).1
        ++ "\nType .help for available commands") = true ∧
    containsSub ".help"
      ("Unknown command: ." ++ (parseDotCommand (jsTrim ".FooBar")).1
        ++ "\nType .help for available commands") = true :=
  c7_unknown_dot_command_error ⟨"js", none⟩ ".FooBar"
    (by decide) (by decide) (by decide) rfl (by decide) (by decide)

/-- Claim C8.  For every parsed `Request` the session dispatches (the local
step fell through and `parse` produced a request): an unknown method writes a
`formatError` response with the method-not-found code -32601; a handler
rejection is caught at the dispatch point and written as a
`formatError(parsed, -32603, message)` response.  In both cases
`sessionHandleLine` returns the written line normally — being a total
function, no error propagates to the caller and the session is not
terminated. -/
theorem c8_dispatch_errors_are_formatted (protocol : ProtocolImpl)
    (methods : String → Option MethodHandler) (localContextPresent : Bool)
    (line : String) (parsed : Request)
    (hlocal : localStep protocol.handleLocal localContextPresent line = none)
    (hparse : protocol.parse line = .req parsed) :
    (methods parsed.method = none →
      sessionHandleLine protocol methods localContextPresent line =
        [protocol.formatError (some parsed) METHOD_NOT_FOUND
          ("Unknown method: " ++ parsed.method)]) ∧
    (∀ handler message, methods parsed.method = some handler →
      handler parsed.params = .error message →
      sessionHandleLine protocol methods localContextPresent line =
        [protocol.formatError (some parsed) INTERNAL_ERROR message]) := by
  unfold sessionHandleLine
  rw [hlocal, hparse]
  constructor
  · intro hm
    simp only [hm]
  · intro handler message hm hh
    simp only [hm, hh]

/-- Witness for C8 at a concrete protocol, registry and line (both the
unknown-method case and the rejecting-handler case). -/
theorem c8_dispatch_errors_are_formatted_witness :
    (sessionHandleLine
        ⟨fun _ => .req ⟨none, "m", []⟩, fun _ _ => "R",
         fun _ code message => toString code ++ "|" ++ message, none⟩
        (fun _ => none) false "x" =
      ["-32601" ++ "|" ++ ("Unknown method: " ++ "m")]) ∧
    (sessionHandleLine
        ⟨fun _ => .req ⟨none, "m", []⟩, fun _ _ => "R",
         fun _ code message => toString code ++ "|" ++ message, none⟩
        (fun _ => some (fun _ => .error "boom")) false "x" =
      ["-32603" ++ "|" ++ "boom"]) :=
  ⟨(c8_dispatch_errors_are_formatted
      ⟨fun _ => .req ⟨none, "m", []⟩, fun _ _ => "R",
       fun _ code message => toString code ++ "|" ++ message, none⟩
      (fun _ => none) false "x" ⟨none, "m", []⟩ rfl rfl).1 rfl,
   (c8_dispatch_errors_are_formatted
      ⟨fun _ => .req ⟨none, "m", []⟩, fun _ _ => "R",
       fun _ code message => toString code ++ "|" ++ message, none⟩
      (fun _ => some (fun _ => .error "boom")) false "x" ⟨none, "m", []⟩ rfl rfl).2
     (fun _ => .error "boom") "boom" rfl rfl⟩

/-- A dispatch-table builder produces an `inject` request only for the three
inject-family command names. -/
theorem DISPATCH_MAP_method_inject (name : String) (b : String → Request) (args : String)
    (hb : DISPATCH_MAP name = some b) (hm : (b args).method = "inject") :
    name = "inject" ∨ name = "i" ∨ name = "load" := by
  unfold DISPATCH_MAP at hb
  split_ifs at hb with h1 h2 h3 h4 h5 h6 h7 h8 h9 h10
  · injection hb with hb; rw [← hb] at hm; simp at hm
  · injection hb with hb; rw [← hb] at hm; simp at hm
  · injection hb with hb; rw [← hb] at hm; simp at hm
  · injection hb with hb; rw [← hb] at hm; simp at hm
  · injection hb with hb; rw [← hb] at hm; simp at hm
  · exact Or.inl h6
  · exact Or.inr (Or.inl h7)
  · exact Or.inr (Or.inr h8)
  · injection hb with hb; rw [← hb] at hm; simp at hm
  · injection hb with hb; rw [← hb] at hm; simp at hm

/-- Claim C10.  `ReplProtocol.parse` mutates only `lastInjectRef`: the language
tag is always preserved; when the trimmed input is a dot-command of the inject
family (`.inject`, `.i`, `.load`) with a non-blank trimmed remainder, the
adapter state becomes the same state with `lastInjectRef` set to that trimmed
remainder; on every other input the adapter state is returned unchanged.
Consequently the invariant "`lastInjectRef` is `null` or a non-empty trimmed
string" is preserved by every `parse` call. -/
theorem c10_repl_parse_mutates_only_inject_ref (st : ReplProtocol) (input : String) :
    ((ReplProtocol.parse st input).1.lang = st.lang) ∧
    ((jsStartsWith (jsTrim input) "." = true ∧
      ((parseDotCommand (jsTrim input)).1 = "inject" ∨
       (parseDotCommand (jsTrim input)).1 = "i" ∨
       (parseDotCommand (jsTrim input)).1 = "load") ∧
      jsTrim (parseDotCommand (jsTrim input)).2 ≠ "") →
      (ReplProtocol.parse st input).1 =
        ⟨st.lang, some (jsTrim (parseDotCommand (jsTrim input)).2)⟩) ∧
    (¬(jsStartsWith (jsTrim input) "." = true ∧
      ((parseDotCommand (jsTrim input)).1 = "inject" ∨
       (parseDotCommand (jsTrim input)).1 = "i" ∨
       (parseDotCommand (jsTrim input)).1 = "load") ∧
      jsTrim (parseDotCommand (jsTrim input)).2 ≠ "") →
      (ReplProtocol.parse st input).1 = st) ∧
    ((st.lastInjectRef = none ∨
      ∃ a, st.lastInjectRef = some (jsTrim a) ∧ jsTrim a ≠ "") →
      ((ReplProtocol.parse st input).1.lastInjectRef = none ∨
       ∃ a, (ReplProtocol.parse st input).1.lastInjectRef = some (jsTrim a) ∧
         jsTrim a ≠ "")) := by
  have hchar :
      ((jsStartsWith (jsTrim input) "." = true ∧
        ((parseDotCommand (jsTrim input)).1 = "inject" ∨
         (parseDotCommand (jsTrim input)).1 = "i" ∨
         (parseDotCommand (jsTrim input)).1 = "load") ∧
        jsTrim (parseDotCommand (jsTrim input)).2 ≠ "") →
        (ReplProtocol.parse st input).1 =
          ⟨st.lang, some (jsTrim (parseDotCommand (jsTrim input)).2)⟩) ∧
      (¬(jsStartsWith (jsTrim input) "." = true ∧
        ((parseDotCommand (jsTrim input)).1 = "inject" ∨
         (parseDotCommand (jsTrim input)).1 = "i" ∨
         (parseDotCommand (jsTrim input)).1 = "load") ∧
        jsTrim (parseDotCommand (jsTrim input)).2 ≠ "") →
        (ReplProtocol.parse st input).1 = st) := by
    by_cases h0 : jsTrim input = ""
    · have hst : (ReplProtocol.parse st input).1 = st := by
        unfold ReplProtocol.parse
        rw [if_pos h0]
      have hns : jsStartsWith (jsTrim input) "." ≠ true := by
        rw [h0]; decide
      exact ⟨fun hc => absurd hc.1 hns, fun _ => hst⟩
    · by_cases h1 : jsStartsWith (jsTrim input) "." = true
      · by_cases h2 : (parseDotCommand (jsTrim input)).1 ∈ LOCAL_COMMANDS
        · have hst : (ReplProtocol.parse st input).1 = st := by
            unfold ReplProtocol.parse
            rw [if_neg h0, if_pos h1, if_pos h2]
          refine ⟨fun hc => ?_, fun _ => hst⟩
          · exfalso
            rcases hc.2.1 with hn | hn | hn <;> rw [hn] at h2 <;> revert h2 <;> decide
        · rcases hd : DISPATCH_MAP (parseDotCommand (jsTrim input)).1 with _ | b
          · have hst : (ReplProtocol.parse st input).1 = st := by
              unfold ReplProtocol.parse
              rw [if_neg h0, if_pos h1, if_neg h2]
              by_cases hc1 : (parseDotCommand (jsTrim input)).1 = "constructor"
              · rw [DISPATCH_MAP_get_ctor _ hc1]
              · by_cases hc2 : (parseDotCommand (jsTrim input)).1 = "__proto__"
                · rw [DISPATCH_MAP_get_proto _ hc2]
                · rw [DISPATCH_MAP_get_none _ hd hc1 hc2]
            refine ⟨fun hc => ?_, fun _ => hst⟩
            · exfalso
              rcases hc.2.1 with hn | hn | hn <;> rw [hn] at hd <;> simp [DISPATCH_MAP] at hd
          · by_cases hm : (b (parseDotCommand (jsTrim input)).2).method = "inject" ∧
                jsTrim (parseDotCommand (jsTrim input)).2 ≠ ""
            · have hst : (ReplProtocol.parse st input).1 =
                  ⟨st.lang, some (jsTrim (parseDotCommand (jsTrim input)).2)⟩ := by
                unfold ReplProtocol.parse
                rw [if_neg h0, if_pos h1, if_neg h2, DISPATCH_MAP_get_own _ _ hd]
                dsimp only
                rw [if_pos hm]
              have hfam := DISPATCH_MAP_method_inject _ b _ hd hm.1
              exact ⟨fun _ => hst, fun hc => absurd ⟨h1, hfam, hm.2⟩ hc⟩
            · have hst : (ReplProtocol.parse st input).1 = st := by
                unfold ReplProtocol.parse
                rw [if_neg h0, if_pos h1, if_neg h2, DISPATCH_MAP_get_own _ _ hd]
                dsimp only
                rw [if_neg hm]
              refine ⟨fun hc => ?_, fun _ => hst⟩
              · exfalso
                refine hm ⟨?_, hc.2.2⟩
                rcases hc.2.1 with hn | hn | hn <;> rw [hn] at hd <;>
                  simp [DISPATCH_MAP] at hd <;> rw [← hd]
      · have hst : (ReplProtocol.parse st input).1 = st := by
          unfold ReplProtocol.parse
          rw [if_neg h0, if_neg h1]
        exact ⟨fun hc => absurd hc.1 h1, fun _ => hst⟩
  refine ⟨?_, hchar.1, hchar.2, ?_⟩
  · by_cases hc : jsStartsWith (jsTrim input) "." = true ∧
        ((parseDotCommand (jsTrim input)).1 = "inject" ∨
         (parseDotCommand (jsTrim input)).1 = "i" ∨
         (parseDotCommand (jsTrim input)).1 = "load") ∧
        jsTrim (parseDotCommand (jsTrim input)).2 ≠ ""
    · rw [hchar.1 hc]
    · rw [hchar.2 hc]
  · intro hinv
    by_cases hc : jsStartsWith (jsTrim input) "." = true ∧
        ((parseDotCommand (jsTrim input)).1 = "inject" ∨
         (parseDotCommand (jsTrim input)).1 = "i" ∨
         (parseDotCommand (jsTrim input)).1 = "load") ∧
        jsTrim (parseDotCommand (jsTrim input)).2 ≠ ""
    · rw [hchar.1 hc]
      right
      refine ⟨(parseDotCommand (jsTrim input)).2, rfl, hc.2.2⟩
    · rw [hchar.2 hc]
      exact hinv

/-- Witness for C10 at concrete inputs: `.inject foo` records the trimmed
reference, and a bare expression leaves the adapter state unchanged. -/
theorem c10_repl_parse_mutates_only_inject_ref_witness :
    (ReplProtocol.parse ⟨"js", none⟩ ".inject  foo ").1 =
      ⟨"js", some (jsTrim (parseDotCommand (jsTrim ".inject  foo ")).2)⟩ ∧
    (ReplProtocol.parse ⟨"js", none⟩ "1 + 2").1 = ⟨"js", none⟩ :=
  ⟨(c10_repl_parse_mutates_only_inject_ref ⟨"js", none⟩ ".inject  foo ").2.1
      (by refine ⟨by decide, Or.inl (by decide), by decide⟩),
   (c10_repl_parse_mutates_only_inject_ref ⟨"js", none⟩ "1 + 2").2.2.1
      (by intro hc; exact absurd hc.1 (by decide))⟩

/-- Claim C4.  For every JSON object reaching the envelope validation: a
missing or wrong-valued `jsonrpc` (it must be the literal string "2.0") and a
missing/empty/non-string `method` both yield a `ProtocolError` with code
-32600 preserving any `id` present in the envelope; a `params` field that is
present but not a non-array object yields code -32602 with `id` preserved;
otherwise `parse` returns a `Request` with the envelope's `id` and `method`,
`params` defaulting to the empty mapping. -/
theorem c4_jsonrpc_envelope_validation (fields : List (String × Json)) :
    (jrpcVersionOk (Json.obj fields) = false →
      jsonRpcParseValue (Json.obj fields) =
        .err ⟨INVALID_REQUEST, "Invalid request: missing jsonrpc \"2.0\"",
          jGet (Json.obj fields) "id"⟩) ∧
    (jrpcVersionOk (Json.obj fields) = true →
     jrpcMethodOf (Json.obj fields) = none →
      jsonRpcParseValue (Json.obj fields) =
        .err ⟨INVALID_REQUEST, "Invalid request: missing method",
          jGet (Json.obj fields) "id"⟩) ∧
    (∀ m, jrpcVersionOk (Json.obj fields) = true →
      jrpcMethodOf (Json.obj fields) = some m →
      jrpcParamsBad (Json.obj fields) = true →
      jsonRpcParseValue (Json.obj fields) =
        .err ⟨INVALID_PARAMS, "Invalid params: must be an object",
          jGet (Json.obj fields) "id"⟩) ∧
    (∀ m, jrpcVersionOk (Json.obj fields) = true →
      jrpcMethodOf (Json.obj fields) = some m →
      jrpcParamsBad (Json.obj fields) = false →
      jsonRpcParseValue (Json.obj fields) =
        .req ⟨jGet (Json.obj fields) "id", m, jrpcParamsOrEmpty (Json.obj fields)⟩) := by
  have key : jsonRpcParseValue (Json.obj fields) =
      (if jrpcVersionOk (Json.obj fields) then
        (match jrpcMethodOf (Json.obj fields) with
         | some m =>
           if jrpcParamsBad (Json.obj fields) then
             ParseOutcome.err ⟨INVALID_PARAMS, "Invalid params: must be an object",
               jGet (Json.obj fields) "id"⟩
           else
             ParseOutcome.req ⟨jGet (Json.obj fields) "id", m,
               jrpcParamsOrEmpty (Json.obj fields)⟩
         | none =>
           ParseOutcome.err ⟨INVALID_REQUEST, "Invalid request: missing method",
             jGet (Json.obj fields) "id"⟩)
       else
         ParseOutcome.err ⟨INVALID_REQUEST, "Invalid request: missing jsonrpc \"2.0\"",
           jGet (Json.obj fields) "id"⟩) := by
    unfold jsonRpcParseValue jrpcVersionOk jrpcMethodOf jrpcParamsBad jrpcParamsOrEmpty
    rcases hjv : jGet (Json.obj fields) "jsonrpc" with _ | v
    · simp
    · cases v with
      | str s =>
        by_cases hs : s = "2.0"
        · subst hs
          rcases hjm : jGet (Json.obj fields) "method" with _ | w
          · simp
          · cases w with
            | str m =>
              by_cases hm0 : m = ""
              · subst hm0; simp
              · rcases hjp : jGet (Json.obj fields) "params" with _ | p
                · simp [hm0]
                · cases p <;> simp [hm0]
            | null => simp
            | bool b => simp
            | num n => simp
            | arr xs => simp
            | obj ps => simp
        · simp [hs]
      | null => simp
      | bool b => simp
      | num n => simp
      | arr xs => simp
      | obj ps => simp
  refine ⟨fun hv => ?_, fun hv hm => ?_, fun m hv hm hp => ?_, fun m hv hm hp => ?_⟩
  · rw [key, if_neg (by simp [hv])]
  · rw [key, if_pos (by simp [hv]), hm]
  · rw [key, if_pos (by simp [hv]), hm]
    dsimp only
    rw [if_pos (by simp [hp])]
  · rw [key, if_pos (by simp [hv]), hm]
    dsimp only
    rw [if_neg (by simp [hp])]

/-- Witness for C4: a request with only an `id` hits the -32600 branch with
the `id` preserved, and a well-formed `eval` request parses. -/
theorem c4_jsonrpc_envelope_validation_witness :
    (jsonRpcParseValue (Json.obj [("id", .num 7)]) =
      .err ⟨INVALID_REQUEST, "Invalid request: missing jsonrpc \"2.0\"",
        jGet (Json.obj [("id", .num 7)]) "id"⟩) ∧
    (jsonRpcParseValue (Json.obj [("jsonrpc", .str "2.0"), ("id", .num 1),
        ("method", .str "eval")]) =
      .req ⟨jGet (Json.obj [("jsonrpc", .str "2.0"), ("id", .num 1),
        ("method", .str "eval")]) "id", "eval",
        jrpcParamsOrEmpty (Json.obj [("jsonrpc", .str "2.0"), ("id", .num 1),
        ("method", .str "eval")])⟩) :=
  ⟨(c4_jsonrpc_envelope_validation [("id", .num 7)]).1 rfl,
   (c4_jsonrpc_envelope_validation [("jsonrpc", .str "2.0"), ("id", .num 1),
      ("method", .str "eval")]).2.2.2 "eval" rfl rfl rfl⟩

/-- The per-host attempt loop of the code (incrementally doubled `delay`)
agrees with the spec-modelled loop (closed-form delay `delay0 * 2 ^ attempt`)
when started with the delay the code would hold at that attempt. -/
theorem connAttemptLoop_eq_spec (env : Nat → Nat → Option String) (hostIdx : Nat)
    (host : String) (port retries delay0 : Nat) :
    ∀ fuel attempt,
      connAttemptLoop env hostIdx host port retries fuel attempt (delay0 * 2 ^ attempt) =
        specAttemptLoop env hostIdx host port retries delay0 fuel attempt
  | 0, _ => rfl
  | fuel + 1, attempt => by
    unfold connAttemptLoop specAttemptLoop
    cases henv : env hostIdx attempt with
    | none => rfl
    | some msg =>
      dsimp only
      cases hcls : classifyConnectError (.err msg) with
      | fatal => rfl
      | hostSkip => rfl
      | transient =>
        by_cases hlt : attempt < retries
        · rw [if_pos hlt, if_pos hlt]
          have hpow : delay0 * 2 ^ attempt * DEFAULTS_backoffFactor =
              delay0 * 2 ^ (attempt + 1) := by
            unfold DEFAULTS_backoffFactor; ring
          rw [hpow,
            connAttemptLoop_eq_spec env hostIdx host port retries delay0 fuel (attempt + 1)]
        · rw [if_neg hlt, if_neg hlt]

/-- The host loop of the code agrees with the spec-modelled host loop. -/
theorem connHostsLoop_eq_spec (env : Nat → Nat → Option String)
    (port retries initialDelay : Nat) :
    ∀ hosts hostIdx,
      connHostsLoop env port retries initialDelay hosts hostIdx =
        specHostsLoop env port retries initialDelay hosts hostIdx
  | [], _ => rfl
  | host :: restHosts, hostIdx => by
    unfold connHostsLoop specHostsLoop
    have h0 : connAttemptLoop env hostIdx host port retries (retries + 1) 0 initialDelay =
        specAttemptLoop env hostIdx host port retries initialDelay (retries + 1) 0 := by
      have h := connAttemptLoop_eq_spec env hostIdx host port retries initialDelay
        (retries + 1) 0
      simpa using h
    rw [h0]
    rcases specAttemptLoop env hostIdx host port retries initialDelay (retries + 1) 0 with
      ⟨evs, sums, out⟩
    cases out with
    | connected a => rfl
    | aborted msg => rfl
    | moveOn =>
      dsimp only
      rw [connHostsLoop_eq_spec env port retries initialDelay restHosts (hostIdx + 1)]

/-- Claim C2.  `connectWithResilience` realizes exactly the spec-modelled
procedure: hosts tried in order `[primary, ...fallbacks]`; a host-skip
classification ends the host's attempts with no sleep and the next host is
tried immediately; a transient classification sleeps the current delay —
`retryDelayMs * 2 ^ attempt`, i.e. starting at `retryDelayMs` and doubling
after each failed attempt — and retries the same host, within the
`retries + 1` per-host attempt budget; a fatal classification aborts the whole
procedure re-raising the underlying error unwrapped.  The equality covers the
full observable behaviour: event trace (attempts, sleeps, connection), attempt
summaries, and the final result. -/
theorem c2_resilience_matches_spec (env : Nat → Nat → Option String)
    (options : ResilienceOptions) :
    connectWithResilience env options = specConnectWithResilience env options := by
  unfold connectWithResilience specConnectWithResilience
  simp only [connHostsLoop_eq_spec]

/-- The summary lines accumulated by the per-host loop are exactly the rendered
failure events of its trace. -/
theorem connAttemptLoop_sums (env : Nat → Nat → Option String) (hostIdx : Nat)
    (host : String) (port retries : Nat) :
    ∀ fuel attempt delay,
      (connAttemptLoop env hostIdx host port retries fuel attempt delay).2.1 =
        failSummaries port (connAttemptLoop env hostIdx host port retries fuel attempt delay).1
  | 0, _, _ => rfl
  | fuel + 1, attempt, delay => by
    unfold connAttemptLoop
    cases henv : env hostIdx attempt with
    | none => rfl
    | some msg =>
      dsimp only
      cases hcls : classifyConnectError (.err msg) with
      | fatal => rfl
      | hostSkip => rfl
      | transient =>
        by_cases hlt : attempt < retries
        · rw [if_pos hlt]
          dsimp only
          rw [connAttemptLoop_sums env hostIdx host port retries fuel (attempt + 1)
            (delay * DEFAULTS_backoffFactor)]
          simp [failSummaries, failSummaryLine]
        · rw [if_neg hlt]
          rfl

/-- The summary lines accumulated across hosts are exactly the rendered
failure events of the whole trace. -/
theorem connHostsLoop_sums (env : Nat → Nat → Option String)
    (port retries initialDelay : Nat) :
    ∀ hosts hostIdx,
      (connHostsLoop env port retries initialDelay hosts hostIdx).2.1 =
        failSummaries port (connHostsLoop env port retries initialDelay hosts hostIdx).1
  | [], _ => rfl
  | host :: restHosts, hostIdx => by
    unfold connHostsLoop
    rcases hres : connAttemptLoop env hostIdx host port retries (retries + 1) 0 initialDelay
      with ⟨evs, sums, out⟩
    have hsums : sums = failSummaries port evs := by
      have h := connAttemptLoop_sums env hostIdx host port retries (retries + 1) 0 initialDelay
      rw [hres] at h
      exact h
    cases out with
    | connected a => exact hsums
    | aborted msg => exact hsums
    | moveOn =>
      dsimp only
      rw [hsums, connHostsLoop_sums env port retries initialDelay restHosts (hostIdx + 1)]
      simp [failSummaries, List.filterMap_append]

/-- Claim C3.  When `connectWithResilience` exhausts every host/attempt
combination without a fatal abort, the one error it raises is a
`ConnectionError` carrying the original primary host, the port, the
`connection` category and `retryable = true`, whose message is the
newline-joined numbered summary of every failed attempt in trace order
(`host:port attempt n: underlying message`), prefixed by the attempt count. -/
theorem c3_exhaustion_connection_error (env : Nat → Nat → Option String)
    (options : ResilienceOptions) (evs : List REvent) (e : ConnectionError)
    (h : connectWithResilience env options = (evs, .connErr e)) :
    e.retryable = true ∧ e.category = "connection" ∧ e.exitCode = 2 ∧
    e.host = options.host ∧ e.port = options.port ∧
    e.message = "Failed to connect after "
      ++ toString (failSummaries options.port evs).length ++ " attempts:\n  "
      ++ String.intercalate "\n  " (failSummaries options.port evs) := by
  unfold connectWithResilience at h
  dsimp only at h
  rcases hres : connHostsLoop env options.port (options.retriesOpt.getD DEFAULTS_retries)
      (options.retryDelayMsOpt.getD DEFAULTS_retryDelayMs)
      (options.host :: options.fallbackHostsOpt.getD []) 0 with ⟨evs2, sums, out⟩
  rw [hres] at h
  have hsums : sums = failSummaries options.port evs2 := by
    have hs := connHostsLoop_sums env options.port (options.retriesOpt.getD DEFAULTS_retries)
      (options.retryDelayMsOpt.getD DEFAULTS_retryDelayMs)
      (options.host :: options.fallbackHostsOpt.getD []) 0
    rw [hres] at hs
    exact hs
  rcases out with _ | p
  · rw [Prod.ext_iff] at h
    obtain ⟨h1, h2⟩ := h
    dsimp only at h1 h2
    injection h2 with h2
    subst h1
    rw [← h2, hsums]
    exact ⟨rfl, rfl, rfl, rfl, rfl, rfl⟩
  · rcases p with ⟨hi, a⟩ | msg
    · exact absurd h (by simp)
    · exact absurd h (by simp)

/-- Witness for C3 at a concrete run: one host, zero retries, a refused
connection on the only attempt. -/
theorem c3_exhaustion_connection_error_witness :
    (mkConnectionError
      "Failed to connect after 1 attempts:\n  localhost:9222 attempt 1: econnrefused"
      "localhost" 9222).retryable = true ∧
    (mkConnectionError
      "Failed to connect after 1 attempts:\n  localhost:9222 attempt 1: econnrefused"
      "localhost" 9222).category = "connection" ∧
    (mkConnectionError
      "Failed to connect after 1 attempts:\n  localhost:9222 attempt 1: econnrefused"
      "localhost" 9222).exitCode = 2 ∧
    (mkConnectionError
      "Failed to connect after 1 attempts:\n  localhost:9222 attempt 1: econnrefused"
      "localhost" 9222).host =
      (⟨"localhost", 9222, some 0, some 5, some []⟩ : ResilienceOptions).host ∧
    (mkConnectionError
      "Failed to connect after 1 attempts:\n  localhost:9222 attempt 1: econnrefused"
      "localhost" 9222).port =
      (⟨"localhost", 9222, some 0, some 5, some []⟩ : ResilienceOptions).port ∧
    (mkConnectionError
      "Failed to connect after 1 attempts:\n  localhost:9222 attempt 1: econnrefused"
      "localhost" 9222).message = "Failed to connect after "
      ++ toString (failSummaries 9222
          [REvent.attemptFail 0 "localhost" 0 "econnrefused" ConnectFailure.hostSkip]).length
      ++ " attempts:\n  "
      ++ String.intercalate "\n  " (failSummaries 9222
          [REvent.attemptFail 0 "localhost" 0 "econnrefused" ConnectFailure.hostSkip]) :=
  c3_exhaustion_connection_error (fun _ _ => some "econnrefused")
    ⟨"localhost", 9222, some 0, some 5, some []⟩
    [REvent.attemptFail 0 "localhost" 0 "econnrefused" ConnectFailure.hostSkip]
    (mkConnectionError
      "Failed to connect after 1 attempts:\n  localhost:9222 attempt 1: econnrefused"
      "localhost" 9222)
    rfl

/-- Every byte of a printed decimal number is a digit. -/
theorem natDigitsB_digits (n : Nat) : ∀ b ∈ natDigitsB n, isDigitByte b = true := by
  induction n using Nat.strong_induction_on with
  | _ n ih =>
    rw [natDigitsB]
    split
    · intro b hb
      simp only [List.mem_singleton] at hb
      subst hb
      simp only [isDigitByte, decide_eq_true_eq, Bool.and_eq_true, decide_eq_true_iff]
      omega
    · intro b hb
      rcases List.mem_append.mp hb with h | h
      · exact ih (n / 10) (Nat.div_lt_self (by omega) (by omega)) b h
      · simp only [List.mem_singleton] at h
        subst h
        simp only [isDigitByte, decide_eq_true_eq, Bool.and_eq_true, decide_eq_true_iff]
        omega

/-- A printed decimal number is never empty. -/
theorem natDigitsB_ne_nil (n : Nat) : natDigitsB n ≠ [] := by
  rw [natDigitsB]
  split <;> simp

/-- The greedy byte accumulator stops at once on a non-digit (or empty) tail. -/
theorem readDigitsByteGo_stop (acc : Nat) (rest : List Nat)
    (h : ∀ b, rest.head? = some b → isDigitByte b = false) :
    readDigitsByteGo acc rest = (acc, rest) := by
  cases rest with
  | nil => rfl
  | cons b r =>
    unfold readDigitsByteGo
    rw [if_neg]
    simp [h b rfl]

/-- Running the greedy accumulator over a printed number followed by anything
adds the number to the shifted accumulator and continues on the tail. -/
theorem readDigitsByteGo_append (m : Nat) : ∀ (acc : Nat) (rest : List Nat),
    readDigitsByteGo acc (natDigitsB m ++ rest) =
      readDigitsByteGo (acc * 10 ^ (natDigitsB m).length + m) rest := by
  induction m using Nat.strong_induction_on with
  | _ m ih =>
    intro acc rest
    by_cases hm : m < 10
    · rw [natDigitsB, dif_pos hm, List.singleton_append]
      simp only [readDigitsByteGo]
      rw [if_pos (by simp only [isDigitByte, Bool.and_eq_true, decide_eq_true_iff]; omega)]
      congr 1
      simp only [List.length_singleton, pow_one]
      omega
    · rw [natDigitsB, dif_neg hm, List.append_assoc, List.singleton_append]
      rw [ih (m / 10) (Nat.div_lt_self (by omega) (by omega))]
      simp only [readDigitsByteGo]
      rw [if_pos (by simp only [isDigitByte, Bool.and_eq_true, decide_eq_true_iff]; omega)]
      congr 1
      simp only [List.length_append, List.length_singleton]
      have hmod : 48 + m % 10 - 48 = m % 10 := by omega
      have hdm : m / 10 * 10 + m % 10 = m := by omega
      rw [hmod, pow_succ]
      have hexp : (acc * 10 ^ (natDigitsB (m / 10)).length + m / 10) * 10 + m % 10
          = acc * (10 ^ (natDigitsB (m / 10)).length * 10) + (m / 10 * 10 + m % 10) := by
        ring
      rw [hexp, hdm]

/-- Reading digits from a printed number followed by a non-digit recovers the
number and the tail. -/
theorem readDigitsByte_nat (m : Nat) (rest : List Nat)
    (h : ∀ b, rest.head? = some b → isDigitByte b = false) :
    readDigitsByte (natDigitsB m ++ rest) = some (m, rest) := by
  rcases hnd : natDigitsB m with _ | ⟨b, t⟩
  · exact absurd hnd (natDigitsB_ne_nil m)
  · have hdig : isDigitByte b = true := by
      have hd := natDigitsB_digits m b
      rw [hnd] at hd
      exact hd (by simp)
    unfold readDigitsByte
    rw [List.cons_append]
    dsimp only
    rw [if_pos hdig, ← List.cons_append, ← hnd, readDigitsByteGo_append,
      readDigitsByteGo_stop _ _ h]
    simp

/-- Every encoded value starts with `i`, `l`, `d`, or a digit. -/
theorem benc_head (v : BValue) : ∃ b t, benc v = b :: t ∧
    (b = 105 ∨ b = 108 ∨ b = 100 ∨ isDigitByte b = true) := by
  cases v with
  | int n => exact ⟨105, _, rfl, Or.inl rfl⟩
  | str s =>
    rcases hnd : natDigitsB s.length with _ | ⟨b, t⟩
    · exact absurd hnd (natDigitsB_ne_nil _)
    · refine ⟨b, t ++ 58 :: s, ?_, ?_⟩
      · show natDigitsB s.length ++ 58 :: s = _
        rw [hnd, List.cons_append]
      · refine Or.inr (Or.inr (Or.inr ?_))
        have hd := natDigitsB_digits s.length b
        rw [hnd] at hd
        exact hd (by simp)
  | list xs => exact ⟨108, _, rfl, Or.inr (Or.inl rfl)⟩
  | dict es => exact ⟨100, _, rfl, Or.inr (Or.inr (Or.inl rfl))⟩

/-- An encoded value is never empty. -/
theorem benc_length_pos (v : BValue) : 1 ≤ (benc v).length := by
  obtain ⟨b, t, hbt, _⟩ := benc_head v
  rw [hbt]
  simp

/-- The head byte of an encoded value is not the terminator `e` (101). -/
theorem benc_head_ne_e (v : BValue) (b : Nat) (t : List Nat) (hbt : benc v = b :: t) :
    b ≠ 101 := by
  obtain ⟨b2, t2, hbt2, hshape⟩ := benc_head v
  rw [hbt2] at hbt
  injection hbt with h1 _
  subst h1
  rcases hshape with h | h | h | h <;>
    first
      | (subst h; decide)
      | (intro hc; subst hc; simp [isDigitByte] at h)

mutual
/-- Decoding an encoded value followed by anything, with fuel at least the
encoded length, yields the value and the trailing bytes. -/
theorem bdecF_benc : ∀ (v : BValue) (fuel : Nat) (rest : List Nat),
    (benc v).length ≤ fuel → bdecF fuel (benc v ++ rest) = some (v, rest)
  | .int n, fuel, rest, hle => by
    obtain ⟨f, rfl⟩ : ∃ f, fuel = f + 1 := by
      rcases fuel with _ | f
      · exfalso
        simp [benc] at hle
      · exact ⟨f, rfl⟩
    show bdecF (f + 1) ((105 :: (intBytesB n ++ [101])) ++ rest) = some (.int n, rest)
    rw [List.cons_append]
    simp only [bdecF]
    rw [if_pos trivial]
    by_cases hn : n < 0
    · rw [show intBytesB n = 45 :: natDigitsB n.natAbs from by rw [intBytesB, if_pos hn]]
      simp only [List.cons_append, List.append_assoc, List.singleton_append,
        List.nil_append]
      rw [readDigitsByte_nat n.natAbs (101 :: rest)
        (fun b hb => by simp at hb; subst hb; decide)]
      dsimp only
      have hval : -((n.natAbs : Nat) : Int) = n := by omega
      rw [hval]
    · rw [show intBytesB n = natDigitsB n.toNat from by rw [intBytesB, if_neg hn]]
      rcases hnd : natDigitsB n.toNat with _ | ⟨b, t⟩
      · exact absurd hnd (natDigitsB_ne_nil _)
      · have hdig : isDigitByte b = true := by
          have hd := natDigitsB_digits n.toNat b
          rw [hnd] at hd
          exact hd (by simp)
        have hb45 : b ≠ 45 := by
          simp only [isDigitByte, Bool.and_eq_true, decide_eq_true_iff] at hdig
          omega
        simp only [List.cons_append, List.append_assoc, List.singleton_append,
          List.nil_append]
        split
        · next rest2 heq =>
          exfalso
          injection heq with h1 _
          exact hb45 h1
        · next hne =>
          rw [← List.cons_append, ← hnd]
          rw [readDigitsByte_nat n.toNat (101 :: rest)
            (fun b2 hb2 => by simp at hb2; subst hb2; decide)]
          dsimp only
          have hval : ((n.toNat : Nat) : Int) = n := by omega
          rw [hval]
  | .str s, fuel, rest, hle => by
    obtain ⟨f, rfl⟩ : ∃ f, fuel = f + 1 := by
      rcases fuel with _ | f
      · exfalso
        have := benc_length_pos (.str s)
        omega
      · exact ⟨f, rfl⟩
    show bdecF (f + 1) ((natDigitsB s.length ++ 58 :: s) ++ rest) = some (.str s, rest)
    rcases hnd : natDigitsB s.length with _ | ⟨b, t⟩
    · exact absurd hnd (natDigitsB_ne_nil _)
    · have hdig : isDigitByte b = true := by
        have hd := natDigitsB_digits s.length b
        rw [hnd] at hd
        exact hd (by simp)
      have hbr : 48 ≤ b ∧ b ≤ 57 := by
        simp only [isDigitByte, Bool.and_eq_true, decide_eq_true_iff] at hdig
        exact hdig
      simp only [List.cons_append, List.append_assoc]
      simp only [bdecF]
      rw [if_neg (by omega), if_neg (by omega), if_neg (by omega), if_pos hdig]
      rw [← List.cons_append, ← hnd]
      rw [readDigitsByte_nat s.length (58 :: (s ++ rest))
        (fun b2 hb2 => by simp at hb2; subst hb2; decide)]
      dsimp only
      rw [if_pos (by simp)]
      rw [List.take_left, List.drop_left]
  | .list xs, fuel, rest, hle => by
    obtain ⟨f, rfl⟩ : ∃ f, fuel = f + 1 := by
      rcases fuel with _ | f
      · exfalso
        have := benc_length_pos (.list xs)
        omega
      · exact ⟨f, rfl⟩
    show bdecF (f + 1) ((108 :: (bencItems xs ++ [101])) ++ rest) = some (.list xs, rest)
    rw [List.cons_append]
    simp only [bdecF]
    rw [if_pos trivial]
    rw [List.append_assoc, List.singleton_append]
    rw [bdecItemsF_benc xs f rest (by
      have hlen : (benc (.list xs)).length = (bencItems xs).length + 2 := by
        show (108 :: (bencItems xs ++ [101])).length = _
        simp
      omega)]
    rfl
  | .dict es, fuel, rest, hle => by
    obtain ⟨f, rfl⟩ : ∃ f, fuel = f + 1 := by
      rcases fuel with _ | f
      · exfalso
        have := benc_length_pos (.dict es)
        omega
      · exact ⟨f, rfl⟩
    show bdecF (f + 1) ((100 :: (bencEntries es ++ [101])) ++ rest) = some (.dict es, rest)
    rw [List.cons_append]
    simp only [bdecF]
    rw [if_pos trivial]
    rw [List.append_assoc, List.singleton_append]
    rw [bdecEntriesF_benc es f rest (by
      have hlen : (benc (.dict es)).length = (bencEntries es).length + 2 := by
        show (100 :: (bencEntries es ++ [101])).length = _
        simp
      omega)]
    rfl
/-- Decoding the encoded elements of a list up to the closing `e`. -/
theorem bdecItemsF_benc : ∀ (xs : List BValue) (fuel : Nat) (rest : List Nat),
    (bencItems xs).length + 1 ≤ fuel →
    bdecItemsF fuel (bencItems xs ++ 101 :: rest) = some (xs, rest)
  | [], fuel, rest, hle => by
    obtain ⟨f, rfl⟩ : ∃ f, fuel = f + 1 := by
      rcases fuel with _ | f
      · exact absurd hle (by omega)
      · exact ⟨f, rfl⟩
    show bdecItemsF (f + 1) (([] : List Nat) ++ 101 :: rest) = some ([], rest)
    rw [List.nil_append]
    simp only [bdecItemsF]
    rw [if_pos trivial]
  | x :: xs, fuel, rest, hle => by
    obtain ⟨f, rfl⟩ : ∃ f, fuel = f + 1 := by
      rcases fuel with _ | f
      · exact absurd hle (by omega)
      · exact ⟨f, rfl⟩
    obtain ⟨b, t, hbt, _⟩ := benc_head x
    have hb101 : b ≠ 101 := benc_head_ne_e x b t hbt
    have hlenx : 1 ≤ (benc x).length := benc_length_pos x
    have hlens : (bencItems (x :: xs)).length = (benc x).length + (bencItems xs).length := by
      show (benc x ++ bencItems xs).length = _
      simp
    show bdecItemsF (f + 1) ((benc x ++ bencItems xs) ++ 101 :: rest) = some (x :: xs, rest)
    rw [List.append_assoc, hbt, List.cons_append]
    simp only [bdecItemsF]
    rw [if_neg hb101]
    rw [← List.cons_append, ← hbt]
    rw [bdecF_benc x f (bencItems xs ++ 101 :: rest) (by omega)]
    dsimp only
    rw [bdecItemsF_benc xs f rest (by omega)]
    rfl
/-- Decoding the encoded entries of a dictionary up to the closing `e`. -/
theorem bdecEntriesF_benc : ∀ (es : List (List Nat × BValue)) (fuel : Nat) (rest : List Nat),
    (bencEntries es).length + 1 ≤ fuel →
    bdecEntriesF fuel (bencEntries es ++ 101 :: rest) = some (es, rest)
  | [], fuel, rest, hle => by
    obtain ⟨f, rfl⟩ : ∃ f, fuel = f + 1 := by
      rcases fuel with _ | f
      · exact absurd hle (by omega)
      · exact ⟨f, rfl⟩
    show bdecEntriesF (f + 1) (([] : List Nat) ++ 101 :: rest) = some ([], rest)
    rw [List.nil_append]
    simp only [bdecEntriesF]
    rw [if_pos trivial]
  | (k, v) :: es, fuel, rest, hle => by
    obtain ⟨f, rfl⟩ : ∃ f, fuel = f + 1 := by
      rcases fuel with _ | f
      · exact absurd hle (by omega)
      · exact ⟨f, rfl⟩
    have hlenv : 1 ≤ (benc v).length := benc_length_pos v
    have hlens : (bencEntries ((k, v) :: es)).length =
        (natDigitsB k.length).length + 1 + k.length + (benc v).length
          + (bencEntries es).length := by
      show (natDigitsB k.length ++ 58 :: (k ++ (benc v ++ bencEntries es))).length = _
      simp
      omega
    show bdecEntriesF (f + 1)
        ((natDigitsB k.length ++ 58 :: (k ++ (benc v ++ bencEntries es))) ++ 101 :: rest)
      = some ((k, v) :: es, rest)
    rcases hnd : natDigitsB k.length with _ | ⟨b, t⟩
    · exact absurd hnd (natDigitsB_ne_nil _)
    · have hdig : isDigitByte b = true := by
        have hd := natDigitsB_digits k.length b
        rw [hnd] at hd
        exact hd (by simp)
      have hb101 : b ≠ 101 := by
        simp only [isDigitByte, Bool.and_eq_true, decide_eq_true_iff] at hdig
        omega
      have hlenk : 1 ≤ (natDigitsB k.length).length := by
        rw [hnd]; simp
      simp only [List.cons_append, List.append_assoc]
      simp only [bdecEntriesF]
      rw [if_neg hb101]
      rw [← List.cons_append, ← hnd]
      rw [readDigitsByte_nat k.length (58 :: (k ++ (benc v ++ (bencEntries es ++ 101 :: rest))))
        (fun b2 hb2 => by simp at hb2; subst hb2; decide)]
      dsimp only
      rw [if_pos (by simp)]
      rw [List.take_left, List.drop_left]
      rw [bdecF_benc v f (bencEntries es ++ 101 :: rest) (by omega)]
      dsimp only
      rw [bdecEntriesF_benc es f rest (by omega)]
      rfl
end

/-- The decoder yields nothing on the empty buffer. -/
theorem bdecF_nil (fuel : Nat) : bdecF fuel [] = none := by
  cases fuel <;> rfl

/-- The list-items decoder yields nothing on the empty buffer. -/
theorem bdecItemsF_nil (fuel : Nat) : bdecItemsF fuel [] = none := by
  cases fuel <;> rfl

/-- The dictionary-entries decoder yields nothing on the empty buffer. -/
theorem bdecEntriesF_nil (fuel : Nat) : bdecEntriesF fuel [] = none := by
  cases fuel <;> rfl

/-- Integer decoding does not recurse: it succeeds with any positive fuel. -/
theorem bdecF_int_succ (n : Int) (f : Nat) (rest : List Nat) :
    bdecF (f + 1) (benc (.int n) ++ rest) = some (.int n, rest) := by
  show bdecF (f + 1) ((105 :: (intBytesB n ++ [101])) ++ rest) = some (.int n, rest)
  rw [List.cons_append]
  simp only [bdecF]
  rw [if_pos trivial]
  by_cases hn : n < 0
  · rw [show intBytesB n = 45 :: natDigitsB n.natAbs from by rw [intBytesB, if_pos hn]]
    simp only [List.cons_append, List.append_assoc, List.singleton_append,
      List.nil_append]
    rw [readDigitsByte_nat n.natAbs (101 :: rest)
      (fun b hb => by simp at hb; subst hb; decide)]
    dsimp only
    have hval : -((n.natAbs : Nat) : Int) = n := by omega
    rw [hval]
  · rw [show intBytesB n = natDigitsB n.toNat from by rw [intBytesB, if_neg hn]]
    rcases hnd : natDigitsB n.toNat with _ | ⟨b, t⟩
    · exact absurd hnd (natDigitsB_ne_nil _)
    · have hdig : isDigitByte b = true := by
        have hd := natDigitsB_digits n.toNat b
        rw [hnd] at hd
        exact hd (by simp)
      have hb45 : b ≠ 45 := by
        simp only [isDigitByte, Bool.and_eq_true, decide_eq_true_iff] at hdig
        omega
      simp only [List.cons_append, List.append_assoc, List.singleton_append,
        List.nil_append]
      split
      · next rest2 heq =>
        exfalso
        injection heq with h1 _
        exact hb45 h1
      · next hne =>
        rw [← List.cons_append, ← hnd]
        rw [readDigitsByte_nat n.toNat (101 :: rest)
          (fun b2 hb2 => by simp at hb2; subst hb2; decide)]
        dsimp only
        have hval : ((n.toNat : Nat) : Int) = n := by omega
        rw [hval]

/-- String decoding does not recurse: it succeeds with any positive fuel. -/
theorem bdecF_str_succ (s : List Nat) (f : Nat) (rest : List Nat) :
    bdecF (f + 1) (benc (.str s) ++ rest) = some (.str s, rest) := by
  show bdecF (f + 1) ((natDigitsB s.length ++ 58 :: s) ++ rest) = some (.str s, rest)
  rcases hnd : natDigitsB s.length with _ | ⟨b, t⟩
  · exact absurd hnd (natDigitsB_ne_nil _)
  · have hdig : isDigitByte b = true := by
      have hd := natDigitsB_digits s.length b
      rw [hnd] at hd
      exact hd (by simp)
    have hbr : 48 ≤ b ∧ b ≤ 57 := by
      simp only [isDigitByte, Bool.and_eq_true, decide_eq_true_iff] at hdig
      exact hdig
    simp only [List.cons_append, List.append_assoc]
    simp only [bdecF]
    rw [if_neg (by omega), if_neg (by omega), if_neg (by omega), if_pos hdig]
    rw [← List.cons_append, ← hnd]
    rw [readDigitsByte_nat s.length (58 :: (s ++ rest))
      (fun b2 hb2 => by simp at hb2; subst hb2; decide)]
    dsimp only
    rw [if_pos (by simp)]
    rw [List.take_left, List.drop_left]

mutual
/-- With arbitrary fuel, decoding an encoded value followed by anything either
fails (fuel exhaustion) or yields exactly the value and the trailing bytes. -/
theorem bdecF_benc_opt : ∀ (v : BValue) (fuel : Nat) (rest : List Nat),
    bdecF fuel (benc v ++ rest) = none ∨ bdecF fuel (benc v ++ rest) = some (v, rest)
  | v, 0, rest => Or.inl rfl
  | .int n, fuel + 1, rest => Or.inr (bdecF_int_succ n fuel rest)
  | .str s, fuel + 1, rest => Or.inr (bdecF_str_succ s fuel rest)
  | .list xs, fuel + 1, rest => by
    show bdecF (fuel + 1) ((108 :: (bencItems xs ++ [101])) ++ rest) = none ∨
      bdecF (fuel + 1) ((108 :: (bencItems xs ++ [101])) ++ rest) = some (.list xs, rest)
    rw [List.cons_append]
    simp only [bdecF]
    rw [if_pos trivial, List.append_assoc, List.singleton_append]
    rcases bdecItemsF_benc_opt xs fuel rest with h | h <;> rw [h]
    · exact Or.inl rfl
    · exact Or.inr rfl
  | .dict es, fuel + 1, rest => by
    show bdecF (fuel + 1) ((100 :: (bencEntries es ++ [101])) ++ rest) = none ∨
      bdecF (fuel + 1) ((100 :: (bencEntries es ++ [101])) ++ rest) = some (.dict es, rest)
    rw [List.cons_append]
    simp only [bdecF]
    rw [if_pos trivial, List.append_assoc, List.singleton_append]
    rcases bdecEntriesF_benc_opt es fuel rest with h | h <;> rw [h]
    · exact Or.inl rfl
    · exact Or.inr rfl
/-- Items variant of `bdecF_benc_opt`. -/
theorem bdecItemsF_benc_opt : ∀ (xs : List BValue) (fuel : Nat) (rest : List Nat),
    bdecItemsF fuel (bencItems xs ++ 101 :: rest) = none ∨
      bdecItemsF fuel (bencItems xs ++ 101 :: rest) = some (xs, rest)
  | _, 0, _ => Or.inl rfl
  | [], fuel + 1, rest => Or.inr (by
      show bdecItemsF (fuel + 1) (([] : List Nat) ++ 101 :: rest) = _
      rw [List.nil_append]
      simp only [bdecItemsF]
      rw [if_pos trivial])
  | x :: xs, fuel + 1, rest => by
    obtain ⟨b, t, hbt, _⟩ := benc_head x
    have hb101 : b ≠ 101 := benc_head_ne_e x b t hbt
    show bdecItemsF (fuel + 1) ((benc x ++ bencItems xs) ++ 101 :: rest) = none ∨
      bdecItemsF (fuel + 1) ((benc x ++ bencItems xs) ++ 101 :: rest) = some (x :: xs, rest)
    rw [List.append_assoc, hbt, List.cons_append]
    simp only [bdecItemsF]
    rw [if_neg hb101, ← List.cons_append, ← hbt]
    rcases bdecF_benc_opt x fuel (bencItems xs ++ 101 :: rest) with h | h <;> rw [h]
    · exact Or.inl rfl
    · dsimp only
      rcases bdecItemsF_benc_opt xs fuel rest with h2 | h2 <;> rw [h2]
      · exact Or.inl rfl
      · exact Or.inr rfl
/-- Entries variant of `bdecF_benc_opt`. -/
theorem bdecEntriesF_benc_opt : ∀ (es : List (List Nat × BValue)) (fuel : Nat)
    (rest : List Nat),
    bdecEntriesF fuel (bencEntries es ++ 101 :: rest) = none ∨
      bdecEntriesF fuel (bencEntries es ++ 101 :: rest) = some (es, rest)
  | _, 0, _ => Or.inl rfl
  | [], fuel + 1, rest => Or.inr (by
      show bdecEntriesF (fuel + 1) (([] : List Nat) ++ 101 :: rest) = _
      rw [List.nil_append]
      simp only [bdecEntriesF]
      rw [if_pos trivial])
  | (k, v) :: es, fuel + 1, rest => by
    rcases hnd : natDigitsB k.length with _ | ⟨b, t⟩
    · exact absurd hnd (natDigitsB_ne_nil _)
    · have hdig : isDigitByte b = true := by
        have hd := natDigitsB_digits k.length b
        rw [hnd] at hd
        exact hd (by simp)
      have hb101 : b ≠ 101 := by
        simp only [isDigitByte, Bool.and_eq_true, decide_eq_true_iff] at hdig
        omega
      show bdecEntriesF (fuel + 1)
          ((natDigitsB k.length ++ 58 :: (k ++ (benc v ++ bencEntries es))) ++ 101 :: rest)
        = none ∨
        bdecEntriesF (fuel + 1)
          ((natDigitsB k.length ++ 58 :: (k ++ (benc v ++ bencEntries es))) ++ 101 :: rest)
        = some ((k, v) :: es, rest)
      simp only [List.cons_append, List.append_assoc]
      rw [hnd, List.cons_append]
      simp only [bdecEntriesF]
      rw [if_neg hb101, ← List.cons_append, ← hnd]
      rw [readDigitsByte_nat k.length
        (58 :: (k ++ (benc v ++ (bencEntries es ++ 101 :: rest))))
        (fun b2 hb2 => by simp at hb2; subst hb2; decide)]
      dsimp only
      rw [if_pos (by simp), List.take_left, List.drop_left]
      rcases bdecF_benc_opt v fuel (bencEntries es ++ 101 :: rest) with h | h <;> rw [h]
      · exact Or.inl rfl
      · dsimp only
        rcases bdecEntriesF_benc_opt es fuel rest with h2 | h2 <;> rw [h2]
        · exact Or.inl rfl
        · exact Or.inr rfl
end

/-- From an equality of concatenations, the shorter left part is a take of the
longer one. -/
theorem append_eq_take_of_le (l1 r1 l2 r2 : List Nat)
    (h : l1 ++ r1 = l2 ++ r2) (hle : l2.length ≤ l1.length) :
    l2 = l1.take l2.length := by
  have h2 : l2 = (l2 ++ r2).take l2.length := (List.take_left l2 r2).symm
  rw [← h] at h2
  rw [List.take_append_of_le_length hle] at h2
  exact h2

/-- From an equality of concatenations, the longer left part splits across the
shorter one. -/
theorem append_eq_split_of_ge (l1 r1 l2 r2 : List Nat)
    (h : l1 ++ r1 = l2 ++ r2) (hge : l1.length ≤ l2.length) :
    l2 = l1 ++ l2.drop l1.length ∧ l2.drop l1.length ++ r2 = r1 := by
  have h1 : l1 = l2.take l1.length := append_eq_take_of_le l2 r2 l1 r1 h.symm hge
  have hsplit : l2 = l1 ++ l2.drop l1.length := by
    conv_lhs => rw [← List.take_append_drop l1.length l2]
    rw [← h1]
  refine ⟨hsplit, ?_⟩
  have h3 : l1 ++ r1 = l1 ++ (l2.drop l1.length ++ r2) := by
    rw [h, ← List.append_assoc, ← hsplit]
  exact (List.append_cancel_left h3).symm

/-- The greedy byte accumulator consumes an all-digit buffer entirely. -/
theorem readDigitsByteGo_all (bs : List Nat) (hall : ∀ b ∈ bs, isDigitByte b = true) :
    ∀ acc, (readDigitsByteGo acc bs).2 = [] := by
  induction bs with
  | nil => intro acc; rfl
  | cons b t ih =>
    intro acc
    unfold readDigitsByteGo
    rw [if_pos (hall b (by simp))]
    exact ih (fun b2 hb2 => hall b2 (by simp [hb2])) _

/-- On an all-digit buffer, reading digits either fails (empty buffer) or
consumes everything. -/
theorem readDigitsByte_all (bs : List Nat) (hall : ∀ b ∈ bs, isDigitByte b = true) :
    readDigitsByte bs = none ∨ ∃ m, readDigitsByte bs = some (m, []) := by
  cases bs with
  | nil => exact Or.inl rfl
  | cons b t =>
    refine Or.inr ⟨(readDigitsByteGo 0 (b :: t)).1, ?_⟩
    unfold readDigitsByte
    dsimp only
    rw [if_pos (hall b (by simp))]
    have h2 := readDigitsByteGo_all (b :: t) hall 0
    exact congrArg some (Prod.ext rfl h2)

mutual
/-- No proper prefix of an encoded value decodes: the framer keeps waiting for
more bytes until the message is complete. -/
theorem bdecF_prefix_none : ∀ (v : BValue) (fuel : Nat) (c1 c2 : List Nat),
    benc v = c1 ++ c2 → c2 ≠ [] → bdecF fuel c1 = none
  | _, 0, _, _, _, _ => rfl
  | _, fuel + 1, [], _, _, _ => rfl
  | .int n, fuel + 1, b :: t, c2, heq, hc2 => by
    have heq2 : (105 : Nat) :: (intBytesB n ++ [101]) = b :: (t ++ c2) := by
      rw [← List.cons_append]
      exact heq
    injection heq2 with hb htail
    subst hb
    simp only [bdecF]
    rw [if_pos trivial]
    by_cases hn : n < 0
    · rw [show intBytesB n = 45 :: natDigitsB n.natAbs from by rw [intBytesB, if_pos hn]]
        at htail
    
      rcases t with _ | ⟨b2, t2⟩
      · rfl
      · rw [List.cons_append, List.cons_append] at htail
        injection htail with hb2 htail2
        subst hb2
        dsimp only
        have hlen := congrArg List.length htail2
        simp at hlen
        have hc2len : 0 < c2.length := List.length_pos.mpr hc2
        have ht2 : t2 = (natDigitsB n.natAbs).take t2.length :=
          append_eq_take_of_le _ _ _ _ htail2 (by omega)
        have hall : ∀ b2 ∈ t2, isDigitByte b2 = true := by
          intro b2 hb2
          rw [ht2] at hb2
          exact natDigitsB_digits n.natAbs b2 (List.take_subset _ _ hb2)
        rcases readDigitsByte_all t2 hall with h | ⟨m, h⟩ <;> rw [h]
    · rw [show intBytesB n = natDigitsB n.toNat from by rw [intBytesB, if_neg hn]] at htail
      have hlen := congrArg List.length htail
      simp at hlen
      have hc2len : 0 < c2.length := List.length_pos.mpr hc2
      have ht : t = (natDigitsB n.toNat).take t.length :=
        append_eq_take_of_le _ _ _ _ htail (by omega)
      have hall : ∀ b2 ∈ t, isDigitByte b2 = true := by
        intro b2 hb2
        rw [ht] at hb2
        exact natDigitsB_digits n.toNat b2 (List.take_subset _ _ hb2)
      rcases t with _ | ⟨b2, t2⟩
      · rfl
      · have hb2d : isDigitByte b2 = true := hall b2 (by simp)
        have hb245 : b2 ≠ 45 := by
          simp only [isDigitByte, Bool.and_eq_true, decide_eq_true_iff] at hb2d
          omega
        split
        · next rest2 hteq =>
          exfalso
          injection hteq with h45 _
          exact hb245 h45
        · next hne =>
          rcases readDigitsByte_all (b2 :: t2) hall with h | ⟨m, h⟩ <;> rw [h]
  | .str s, fuel + 1, b :: t, c2, heq, hc2 => by
    have hc2len : 0 < c2.length := List.length_pos.mpr hc2
    have heqr : natDigitsB s.length ++ 58 :: s = (b :: t) ++ c2 := heq
    by_cases hcut : (b :: t).length ≤ (natDigitsB s.length).length
    · have hc1 : b :: t = (natDigitsB s.length).take (b :: t).length :=
        append_eq_take_of_le _ _ _ _ heqr hcut
      have hall : ∀ b2 ∈ b :: t, isDigitByte b2 = true := by
        intro b2 hb2
        rw [hc1] at hb2
        exact natDigitsB_digits s.length b2 (List.take_subset _ _ hb2)
      have hb : isDigitByte b = true := hall b (by simp)
      have hbr : 48 ≤ b ∧ b ≤ 57 := by
        simp only [isDigitByte, Bool.and_eq_true, decide_eq_true_iff] at hb
        exact hb
      simp only [bdecF]
      rw [if_neg (by omega), if_neg (by omega), if_neg (by omega), if_pos hb]
      rcases readDigitsByte_all (b :: t) hall with h | ⟨m, h⟩ <;> rw [h]
    · have hge : (natDigitsB s.length).length ≤ (b :: t).length := by omega
      obtain ⟨hsplit, hrest⟩ := append_eq_split_of_ge _ _ _ _ heqr hge
      rcases hd : (b :: t).drop (natDigitsB s.length).length with _ | ⟨d0, d2⟩
      · exfalso
        have hlen2 : ((b :: t).drop (natDigitsB s.length).length).length = 0 := by
          rw [hd]; rfl
        rw [List.length_drop] at hlen2
        omega
      · rw [hd] at hsplit hrest
        rw [List.cons_append] at hrest
        injection hrest with hd0 hrest2
        subst hd0
        have hdlen := congrArg List.length hrest2
        simp at hdlen
        rw [hsplit]
        rcases hnd : natDigitsB s.length with _ | ⟨bn, tn⟩
        · exact absurd hnd (natDigitsB_ne_nil _)
        · have hdig : isDigitByte bn = true := by
            have hdg := natDigitsB_digits s.length bn
            rw [hnd] at hdg
            exact hdg (by simp)
          have hbr : 48 ≤ bn ∧ bn ≤ 57 := by
            simp only [isDigitByte, Bool.and_eq_true, decide_eq_true_iff] at hdig
            exact hdig
          rw [List.cons_append]
          simp only [bdecF]
          rw [if_neg (by omega), if_neg (by omega), if_neg (by omega), if_pos hdig]
          rw [← List.cons_append, ← hnd]
          rw [readDigitsByte_nat s.length (58 :: d2)
            (fun b2 hb2 => by simp at hb2; subst hb2; decide)]
          dsimp only
          rw [if_neg (by omega)]
  | .list xs, fuel + 1, b :: t, c2, heq, hc2 => by
    have heq2 : (108 : Nat) :: (bencItems xs ++ [101]) = b :: (t ++ c2) := by
      rw [← List.cons_append]
      exact heq
    injection heq2 with hb htail
    subst hb
    simp only [bdecF]
    rw [if_pos trivial]
    rw [bdecItemsF_prefix_none xs fuel t c2 htail hc2]
    rfl
  | .dict es, fuel + 1, b :: t, c2, heq, hc2 => by
    have heq2 : (100 : Nat) :: (bencEntries es ++ [101]) = b :: (t ++ c2) := by
      rw [← List.cons_append]
      exact heq
    injection heq2 with hb htail
    subst hb
    simp only [bdecF]
    rw [if_pos trivial]
    rw [bdecEntriesF_prefix_none es fuel t c2 htail hc2]
    rfl
/-- Items variant of `bdecF_prefix_none`. -/
theorem bdecItemsF_prefix_none : ∀ (xs : List BValue) (fuel : Nat) (c1 c2 : List Nat),
    bencItems xs ++ [101] = c1 ++ c2 → c2 ≠ [] → bdecItemsF fuel c1 = none
  | _, 0, _, _, _, _ => rfl
  | _, fuel + 1, [], _, _, _ => rfl
  | [], fuel + 1, b :: t, c2, heq, hc2 => by
    exfalso
    have hlen : (bencItems ([] : List BValue) ++ [101]).length = ((b :: t) ++ c2).length :=
      congrArg List.length heq
    simp only [bencItems] at hlen
    simp at hlen
    exact hc2 hlen.2
  | x :: xs, fuel + 1, b :: t, c2, heq, hc2 => by
    have hc2len : 0 < c2.length := List.length_pos.mpr hc2
    have heqr : benc x ++ (bencItems xs ++ [101]) = (b :: t) ++ c2 := by
      rw [← List.append_assoc]
      exact heq
    by_cases hcut : (b :: t).length < (benc x).length
    · have h1 : b :: t = (benc x).take (b :: t).length :=
        append_eq_take_of_le _ _ _ _ heqr (by omega)
      have hsplit : benc x = (b :: t) ++ (benc x).drop (b :: t).length := by
        conv_lhs => rw [← List.take_append_drop (b :: t).length (benc x)]
        rw [← h1]
      have hdne : (benc x).drop (b :: t).length ≠ [] := by
        apply List.ne_nil_of_length_pos
        rw [List.length_drop]
        omega
      obtain ⟨bb, tt, hbt, _⟩ := benc_head x
      have h2 : (bb :: tt : List Nat) = b :: (t ++ (benc x).drop (b :: t).length) :=
        (hbt.symm.trans hsplit).trans (List.cons_append b t _)
      have hbbb : bb = b := (List.cons_eq_cons.mp h2).1
      have hb101 : b ≠ 101 := hbbb ▸ benc_head_ne_e x bb tt hbt
      simp only [bdecItemsF]
      rw [if_neg hb101]
      rw [bdecF_prefix_none x fuel (b :: t) ((benc x).drop (b :: t).length) hsplit hdne]
    · have hge : (benc x).length ≤ (b :: t).length := by omega
      obtain ⟨hsplit, hrest⟩ := append_eq_split_of_ge _ _ _ _ heqr hge
      obtain ⟨bb, tt, hbt, _⟩ := benc_head x
      have h2 : (b :: t : List Nat) = bb :: (tt ++ (b :: t).drop (benc x).length) :=
        (hsplit.trans (congrArg (fun l => l ++ (b :: t).drop (benc x).length) hbt)).trans
          (List.cons_append bb tt _)
      have hbbb : bb = b := ((List.cons_eq_cons.mp h2).1).symm
      have hb101 : b ≠ 101 := hbbb ▸ benc_head_ne_e x bb tt hbt
      simp only [bdecItemsF]
      rw [if_neg hb101]
      rw [show (b :: t : List Nat) = benc x ++ (b :: t).drop (benc x).length from hsplit]
      rcases bdecF_benc_opt x fuel ((b :: t).drop (benc x).length) with h | h
      · rw [h]
      · rw [h]
        dsimp only
        rw [bdecItemsF_prefix_none xs fuel ((b :: t).drop (benc x).length) c2 hrest.symm hc2]
        rfl
/-- Entries variant of `bdecF_prefix_none`. -/
theorem bdecEntriesF_prefix_none : ∀ (es : List (List Nat × BValue)) (fuel : Nat)
    (c1 c2 : List Nat),
    bencEntries es ++ [101] = c1 ++ c2 → c2 ≠ [] → bdecEntriesF fuel c1 = none
  | _, 0, _, _, _, _ => rfl
  | _, fuel + 1, [], _, _, _ => rfl
  | [], fuel + 1, b :: t, c2, heq, hc2 => by
    exfalso
    have hlen : (bencEntries ([] : List (List Nat × BValue)) ++ [101]).length
        = ((b :: t) ++ c2).length := congrArg List.length heq
    simp only [bencEntries] at hlen
    simp at hlen
    exact hc2 hlen.2
  | (k, v) :: es, fuel + 1, b :: t, c2, heq, hc2 => by
    have hc2len : 0 < c2.length := List.length_pos.mpr hc2
    have heqr : natDigitsB k.length ++ 58 :: (k ++ (benc v ++ (bencEntries es ++ [101])))
        = (b :: t) ++ c2 := by
      rw [← heq]
      show _ = (natDigitsB k.length ++ 58 :: (k ++ (benc v ++ bencEntries es))) ++ [101]
      simp only [List.cons_append, List.append_assoc]
    by_cases hcut : (b :: t).length ≤ (natDigitsB k.length).length
    · have hc1 : b :: t = (natDigitsB k.length).take (b :: t).length :=
        append_eq_take_of_le _ _ _ _ heqr hcut
      have hall : ∀ b2 ∈ b :: t, isDigitByte b2 = true := by
        intro b2 hb2
        rw [hc1] at hb2
        exact natDigitsB_digits k.length b2 (List.take_subset _ _ hb2)
      have hb : isDigitByte b = true := hall b (by simp)
      have hb101 : b ≠ 101 := by
        simp only [isDigitByte, Bool.and_eq_true, decide_eq_true_iff] at hb
        omega
      simp only [bdecEntriesF]
      rw [if_neg hb101]
      rcases readDigitsByte_all (b :: t) hall with h | ⟨m, h⟩ <;> rw [h]
    · have hge : (natDigitsB k.length).length ≤ (b :: t).length := by omega
      obtain ⟨hsplit, hrest⟩ := append_eq_split_of_ge _ _ _ _ heqr hge
      rcases hd : (b :: t).drop (natDigitsB k.length).length with _ | ⟨d0, d2⟩
      · exfalso
        have hlen2 : ((b :: t).drop (natDigitsB k.length).length).length = 0 := by
          rw [hd]; rfl
        rw [List.length_drop] at hlen2
        omega
      · rw [hd] at hsplit hrest
        rw [List.cons_append] at hrest
        injection hrest with hd0 hrest2
        subst hd0
        rw [hsplit]
        rcases hnd : natDigitsB k.length with _ | ⟨bn, tn⟩
        · exact absurd hnd (natDigitsB_ne_nil _)
        · have hdig : isDigitByte bn = true := by
            have hdg := natDigitsB_digits k.length bn
            rw [hnd] at hdg
            exact hdg (by simp)
          have hb101 : bn ≠ 101 := by
            simp only [isDigitByte, Bool.and_eq_true, decide_eq_true_iff] at hdig
            omega
          rw [List.cons_append]
          simp only [bdecEntriesF]
          rw [if_neg hb101]
          rw [← List.cons_append, ← hnd]
          rw [readDigitsByte_nat k.length (58 :: d2)
            (fun b2 hb2 => by simp at hb2; subst hb2; decide)]
          dsimp only
          by_cases hklen : d2.length < k.length
          · rw [if_neg (by omega)]
          · have hge2 : k.length ≤ d2.length := by omega
            obtain ⟨hsplit2, hrest3⟩ := append_eq_split_of_ge k
              (benc v ++ (bencEntries es ++ [101])) d2 c2 hrest2.symm hge2
            rw [if_pos hge2]
            by_cases hvlen : (d2.drop k.length).length < (benc v).length
            · have h1 : d2.drop k.length = (benc v).take (d2.drop k.length).length :=
                append_eq_take_of_le _ _ _ _ hrest3.symm (by omega)
              have hsplit3 : benc v = d2.drop k.length
                  ++ (benc v).drop (d2.drop k.length).length := by
                conv_lhs => rw [← List.take_append_drop (d2.drop k.length).length (benc v)]
                rw [← h1]
              have hdne : (benc v).drop (d2.drop k.length).length ≠ [] := by
                apply List.ne_nil_of_length_pos
                rw [List.length_drop]
                omega
              rw [bdecF_prefix_none v fuel _ _ hsplit3 hdne]
            · have hge3 : (benc v).length ≤ (d2.drop k.length).length := by omega
              obtain ⟨hsplit4, hrest4⟩ := append_eq_split_of_ge (benc v)
                (bencEntries es ++ [101]) (d2.drop k.length) c2 hrest3.symm hge3
              rw [show ((d2.drop k.length : List Nat))
                  = benc v ++ (d2.drop k.length).drop (benc v).length from hsplit4]
              rcases bdecF_benc_opt v fuel ((d2.drop k.length).drop (benc v).length)
                with h | h
              · rw [h]
              · rw [h]
                dsimp only
                rw [bdecEntriesF_prefix_none es fuel
                  ((d2.drop k.length).drop (benc v).length) c2 hrest4.symm hc2]
                rfl
end

/-- Draining an empty buffer yields nothing. -/
theorem nreplDrain_nil (fuel : Nat) : nreplDrain fuel [] = ([], []) := by
  cases fuel <;> rfl

/-- Draining a buffer holding exactly one complete message yields that message
and an empty buffer. -/
theorem nreplDrain_single (v : BValue) (fuel : Nat) (hf : 1 ≤ fuel) :
    nreplDrain fuel (benc v) = ([v], []) := by
  obtain ⟨f, rfl⟩ : ∃ f, fuel = f + 1 := by
    rcases fuel with _ | f
    · omega
    · exact ⟨f, rfl⟩
  simp only [nreplDrain]
  rw [if_neg (by have := benc_length_pos v; omega)]
  rw [show bdec (benc v) = some (v, []) from by
    show bdecF ((benc v).length + 1) (benc v) = _
    have h := bdecF_benc v ((benc v).length + 1) [] (by omega)
    rwa [List.append_nil] at h]
  dsimp only
  rw [List.drop_length, nreplDrain_nil f]

/-- Claim C6.  The nREPL per-socket framing loop — append each chunk, then
repeatedly decode one bencoded value from the front, computing the consumed
byte count by re-encoding the decoded value: (i) a complete message split
across two data chunks yields no message after the first chunk (which stays
buffered whole) and exactly one decoded message, with an emptied buffer, after
the second — not zero and not two; (ii) two concatenated complete messages in
a single chunk yield exactly the two decoded messages in order. -/
theorem c6_nrepl_framing (v v1 v2 : BValue) (c1 c2 : List Nat)
    (hsplit : benc v = c1 ++ c2) (hc2 : c2 ≠ []) :
    nreplFeed [] c1 = ([], c1) ∧
    nreplFeed c1 c2 = ([v], []) ∧
    nreplFeed [] (benc v1 ++ benc v2) = ([v1, v2], []) := by
  refine ⟨?_, ?_, ?_⟩
  · unfold nreplFeed
    rcases c1 with _ | ⟨b, t⟩
    · rfl
    · rw [List.nil_append]
      simp only [nreplDrain]
      rw [if_neg (by simp)]
      rw [show bdec (b :: t) = none from bdecF_prefix_none v _ (b :: t) c2 hsplit hc2]
  · unfold nreplFeed
    rw [← hsplit]
    exact nreplDrain_single v _ (by omega)
  · unfold nreplFeed
    rw [List.nil_append]
    simp only [nreplDrain]
    rw [if_neg (by
      have h1 := benc_length_pos v1
      simp only [List.length_append]
      omega)]
    rw [show bdec (benc v1 ++ benc v2) = some (v1, benc v2) from by
      show bdecF ((benc v1 ++ benc v2).length + 1) (benc v1 ++ benc v2) = _
      exact bdecF_benc v1 _ (benc v2) (by simp only [List.length_append]; omega)]
    dsimp only
    rw [List.drop_left]
    rw [nreplDrain_single v2 _ (by
      have h1 := benc_length_pos v1
      simp only [List.length_append]
      omega)]

/-- Witness for C6 at a concrete message and split: `i0e` split as
`i` + `0e`, and the pair `i1e`, `0:` (the empty byte string) in one chunk. -/
theorem c6_nrepl_framing_witness :
    nreplFeed [] [105] = ([], [105]) ∧
    nreplFeed [105] [48, 101] = ([BValue.int 0], []) ∧
    nreplFeed [] (benc (.int 1) ++ benc (.str [])) =
      ([BValue.int 1, BValue.str []], []) :=
  c6_nrepl_framing (.int 0) (.int 1) (.str []) [105] [48, 101]
    (by rw [show benc (.int 0) = [105, 48, 101] from by
          simp [benc, intBytesB, natDigitsB]]
        rfl)
    (by simp)

/-- `Char.ofNat` on a value below the surrogate range keeps the code point. -/
theorem char_toNat_ofNat (m : Nat) (h : m < 55296) : (Char.ofNat m).toNat = m := by
  unfold Char.ofNat
  rw [dif_pos (Or.inl h)]
  rfl

/-- Every character of a printed decimal number has a digit code. -/
theorem natDigitChars_codes (n : Nat) :
    ∀ c ∈ natDigitChars n, 48 ≤ c.toNat ∧ c.toNat ≤ 57 := by
  induction n using Nat.strong_induction_on with
  | _ n ih =>
    rw [natDigitChars]
    split
    · intro c hc
      simp only [List.mem_singleton] at hc
      subst hc
      rw [char_toNat_ofNat _ (by omega)]
      omega
    · intro c hc
      rcases List.mem_append.mp hc with h | h
      · exact ih (n / 10) (Nat.div_lt_self (by omega) (by omega)) c h
      · simp only [List.mem_singleton] at h
        subst h
        rw [char_toNat_ofNat _ (by omega)]
        omega

/-- A printed decimal number is never empty. -/
theorem natDigitChars_ne_nil (n : Nat) : natDigitChars n ≠ [] := by
  rw [natDigitChars]
  split <;> simp

/-- A printed decimal number starts with a digit character. -/
theorem natDigitChars_cons (n : Nat) :
    ∃ c t, natDigitChars n = c :: t ∧ 48 ≤ c.toNat ∧ c.toNat ≤ 57 := by
  rcases hnd : natDigitChars n with _ | ⟨c, t⟩
  · exact absurd hnd (natDigitChars_ne_nil n)
  · have hd := natDigitChars_codes n c
    rw [hnd] at hd
    exact ⟨c, t, rfl, hd (by simp)⟩

/-- The greedy character accumulator stops at once on a non-digit (or empty)
tail. -/
theorem readDigitsGo_stop (acc : Nat) (rest : List Char)
    (h : ∀ c, rest.head? = some c → isDigitChar c = false) :
    readDigitsGo acc rest = (acc, rest) := by
  cases rest with
  | nil => rfl
  | cons c r =>
    unfold readDigitsGo
    rw [if_neg]
    simp [h c rfl]

/-- Running the greedy accumulator over a printed number followed by anything
adds the number to the shifted accumulator and continues on the tail. -/
theorem readDigitsGo_append (m : Nat) : ∀ (acc : Nat) (rest : List Char),
    readDigitsGo acc (natDigitChars m ++ rest) =
      readDigitsGo (acc * 10 ^ (natDigitChars m).length + m) rest := by
  induction m using Nat.strong_induction_on with
  | _ m ih =>
    intro acc rest
    by_cases hm : m < 10
    · rw [natDigitChars, dif_pos hm, List.singleton_append]
      simp only [readDigitsGo]
      rw [if_pos (by
        simp only [isDigitChar, Bool.and_eq_true, decide_eq_true_iff]
        rw [char_toNat_ofNat _ (by omega)]
        omega)]
      congr 1
      rw [char_toNat_ofNat _ (by omega)]
      simp only [List.length_singleton, pow_one]
      omega
    · rw [natDigitChars, dif_neg hm, List.append_assoc, List.singleton_append]
      rw [ih (m / 10) (Nat.div_lt_self (by omega) (by omega))]
      simp only [readDigitsGo]
      rw [if_pos (by
        simp only [isDigitChar, Bool.and_eq_true, decide_eq_true_iff]
        rw [char_toNat_ofNat _ (by omega)]
        omega)]
      congr 1
      rw [char_toNat_ofNat _ (by omega)]
      simp only [List.length_append, List.length_singleton]
      have hmod : 48 + m % 10 - 48 = m % 10 := by omega
      have hdm : m / 10 * 10 + m % 10 = m := by omega
      rw [hmod, pow_succ]
      have hexp : (acc * 10 ^ (natDigitChars (m / 10)).length + m / 10) * 10 + m % 10
          = acc * (10 ^ (natDigitChars (m / 10)).length * 10) + (m / 10 * 10 + m % 10) := by
        ring
      rw [hexp, hdm]

/-- Reading digits from a printed number followed by a non-digit recovers the
number and the tail. -/
theorem readDigits_nat (m : Nat) (rest : List Char)
    (h : ∀ c, rest.head? = some c → isDigitChar c = false) :
    readDigits (natDigitChars m ++ rest) = some (m, rest) := by
  rcases hnd : natDigitChars m with _ | ⟨c, t⟩
  · exact absurd hnd (natDigitChars_ne_nil m)
  · have hdig : isDigitChar c = true := by
      have hd := natDigitChars_codes m c
      rw [hnd] at hd
      have hcc := hd (by simp)
      simp only [isDigitChar, Bool.and_eq_true, decide_eq_true_iff]
      exact hcc
    unfold readDigits
    rw [List.cons_append]
    dsimp only
    rw [if_pos hdig, ← List.cons_append, ← hnd, readDigitsGo_append,
      readDigitsGo_stop _ _ h]
    simp

/-- `hexVal` inverts `hexDigitChar` on values below 16. -/
theorem hexVal_hexDigitChar (n : Nat) (h : n < 16) :
    hexVal (hexDigitChar n) = some n := by
  by_cases h10 : n < 10
  · rw [hexDigitChar, if_pos h10]
    have ht : (Char.ofNat (48 + n)).toNat = 48 + n := char_toNat_ofNat _ (by omega)
    simp only [hexVal, ht]
    rw [if_pos (by omega)]
    congr 1
    omega
  · rw [hexDigitChar, if_neg h10]
    have ht : (Char.ofNat (87 + n)).toNat = 87 + n := char_toNat_ofNat _ (by omega)
    simp only [hexVal, ht]
    rw [if_neg (by omega), if_pos (by omega)]
    congr 1
    omega

/-- Parsing an escaped string body followed by the closing quote recovers the
original characters and the tail after the quote. -/
theorem jparseStringBody_escape : ∀ (s rest : List Char),
    jparseStringBody (jsonEscape s ++ '"' :: rest) = some (s, rest)
  | [], rest => by
    rw [show jsonEscape [] = [] from rfl, List.nil_append]
    unfold jparseStringBody
    rw [if_pos rfl]
  | c :: cs, rest => by
    rw [show jsonEscape (c :: cs) = jsonEscapeChar c ++ jsonEscape cs from rfl,
      List.append_assoc]
    by_cases h1 : c = '"'
    · subst h1
      rw [show jsonEscapeChar '"' = ['\\', '"'] from rfl]
      simp only [List.cons_append, List.nil_append]
      unfold jparseStringBody
      rw [if_neg (by decide), if_pos rfl]
      dsimp only
      rw [if_pos rfl]
      rw [jparseStringBody_escape cs rest]
      rfl
    · by_cases h2 : c = '\\'
      · subst h2
        rw [show jsonEscapeChar '\\' = ['\\', '\\'] from rfl]
        simp only [List.cons_append, List.nil_append]
        unfold jparseStringBody
        rw [if_neg (by decide), if_pos rfl]
        dsimp only
        rw [if_neg (by decide), if_pos rfl]
        rw [jparseStringBody_escape cs rest]
        rfl
      · by_cases h3 : c = '\n'
        · subst h3
          rw [show jsonEscapeChar '\n' = ['\\', 'n'] from rfl]
          simp only [List.cons_append, List.nil_append]
          unfold jparseStringBody
          rw [if_neg (by decide), if_pos rfl]
          dsimp only
          rw [if_neg (by decide), if_neg (by decide), if_neg (by decide), if_pos rfl]
          rw [jparseStringBody_escape cs rest]
          rfl
        · by_cases h4 : c = '\r'
          · subst h4
            rw [show jsonEscapeChar '\r' = ['\\', 'r'] from rfl]
            simp only [List.cons_append, List.nil_append]
            unfold jparseStringBody
            rw [if_neg (by decide), if_pos rfl]
            dsimp only
            rw [if_neg (by decide), if_neg (by decide), if_neg (by decide),
              if_neg (by decide), if_pos rfl]
            rw [jparseStringBody_escape cs rest]
            rfl
          · by_cases h5 : c = '\t'
            · subst h5
              rw [show jsonEscapeChar '\t' = ['\\', 't'] from rfl]
              simp only [List.cons_append, List.nil_append]
              unfold jparseStringBody
              rw [if_neg (by decide), if_pos rfl]
              dsimp only
              rw [if_neg (by decide), if_neg (by decide), if_neg (by decide),
                if_neg (by decide), if_neg (by decide), if_pos rfl]
              rw [jparseStringBody_escape cs rest]
              rfl
            · by_cases h6 : c = Char.ofNat 8
              · subst h6
                rw [show jsonEscapeChar (Char.ofNat 8) = ['\\', 'b'] from rfl]
                simp only [List.cons_append, List.nil_append]
                unfold jparseStringBody
                rw [if_neg (by decide), if_pos rfl]
                dsimp only
                rw [if_neg (by decide), if_neg (by decide), if_neg (by decide),
                  if_neg (by decide), if_neg (by decide), if_neg (by decide), if_pos rfl]
                rw [jparseStringBody_escape cs rest]
                rfl
              · by_cases h7 : c = Char.ofNat 12
                · subst h7
                  rw [show jsonEscapeChar (Char.ofNat 12) = ['\\', 'f'] from rfl]
                  simp only [List.cons_append, List.nil_append]
                  unfold jparseStringBody
                  rw [if_neg (by decide), if_pos rfl]
                  dsimp only
                  rw [if_neg (by decide), if_neg (by decide), if_neg (by decide),
                    if_neg (by decide), if_neg (by decide), if_neg (by decide),
                    if_neg (by decide), if_pos rfl]
                  rw [jparseStringBody_escape cs rest]
                  rfl
                · by_cases h8 : c.toNat < 32
                  · rw [show jsonEscapeChar c = ['\\', 'u', '0', '0',
                        hexDigitChar (c.toNat / 16), hexDigitChar (c.toNat % 16)] from by
                      rw [jsonEscapeChar, if_neg h1, if_neg h2, if_neg h3, if_neg h4,
                        if_neg h5, if_neg h6, if_neg h7, if_pos h8]]
                    simp only [List.cons_append, List.nil_append]
                    unfold jparseStringBody
                    rw [if_neg (by decide), if_pos rfl]
                    dsimp only
                    rw [if_neg (by decide), if_neg (by decide), if_neg (by decide),
                      if_neg (by decide), if_neg (by decide), if_neg (by decide),
                      if_neg (by decide), if_neg (by decide), if_pos rfl]
                    rw [show hexVal '0' = some 0 from rfl]
                    rw [hexVal_hexDigitChar (c.toNat / 16) (by omega),
                      hexVal_hexDigitChar (c.toNat % 16) (by omega)]
                    dsimp only
                    rw [jparseStringBody_escape cs rest]
                    rw [show ((0 * 16 + 0) * 16 + c.toNat / 16) * 16 + c.toNat % 16
                        = c.toNat from by omega, Char.ofNat_toNat]
                    rfl
                  · rw [show jsonEscapeChar c = [c] from by
                      rw [jsonEscapeChar, if_neg h1, if_neg h2, if_neg h3, if_neg h4,
                        if_neg h5, if_neg h6, if_neg h7, if_neg h8]]
                    rw [List.singleton_append]
                    unfold jparseStringBody
                    rw [if_neg h1, if_neg h2]
                    rw [jparseStringBody_escape cs rest]
                    rfl

/-- A printed JSON value is a non-empty character list whose head is never the
array terminator `]`. -/
theorem jprint_cons (j : Json) : ∃ c t, jprint j = c :: t ∧ c ≠ ']' := by
  cases j with
  | null => exact ⟨'n', _, rfl, by decide⟩
  | bool b =>
    cases b with
    | false => exact ⟨'f', _, rfl, by decide⟩
    | true => exact ⟨'t', _, rfl, by decide⟩
  | num n =>
    by_cases hn : n < 0
    · refine ⟨'-', natDigitChars n.natAbs, ?_, by decide⟩
      show intChars n = _
      rw [intChars, if_pos hn]
    · obtain ⟨c, t, hct, h48, h57⟩ := natDigitChars_cons n.toNat
      refine ⟨c, t, ?_, ?_⟩
      · show intChars n = _
        rw [intChars, if_neg hn, hct]
      · intro hc
        subst hc
        exact absurd h57 (by decide)
  | str s => exact ⟨'"', _, rfl, by decide⟩
  | arr xs => exact ⟨'[', _, rfl, by decide⟩
  | obj fs => exact ⟨lbraceC, _, rfl, by decide⟩

/-- A printed JSON value is never empty. -/
theorem jprint_length_pos (j : Json) : 1 ≤ (jprint j).length := by
  obtain ⟨c, t, hct, _⟩ := jprint_cons j
  rw [hct]
  simp

/-- The character after an array element (a comma or the closing bracket) is
never a digit. -/
theorem jprintItems_tail_not_digit (xs : List Json) (rest : List Char) :
    ∀ c, (jprintItems xs ++ ']' :: rest).head? = some c → isDigitChar c = false := by
  cases xs with
  | nil =>
    intro c hc
    rw [show jprintItems ([] : List Json) = [] from rfl, List.nil_append] at hc
    simp only [List.head?_cons, Option.some.injEq] at hc
    subst hc
    decide
  | cons x xs =>
    intro c hc
    rw [show jprintItems (x :: xs) = ',' :: (jprint x ++ jprintItems xs) from rfl,
      List.cons_append] at hc
    simp only [List.head?_cons, Option.some.injEq] at hc
    subst hc
    decide

/-- The character after an object field (a comma or the closing brace) is
never a digit. -/
theorem jprintFields_tail_not_digit (fs : List (String × Json)) (rest : List Char) :
    ∀ c, (jprintFields fs ++ rbraceC :: rest).head? = some c → isDigitChar c = false := by
  cases fs with
  | nil =>
    intro c hc
    rw [show jprintFields ([] : List (String × Json)) = [] from rfl,
      List.nil_append] at hc
    simp only [List.head?_cons, Option.some.injEq] at hc
    subst hc
    decide
  | cons f fs =>
    intro c hc
    rw [show jprintFields (f :: fs) = ',' :: (jprintField f ++ jprintFields fs) from rfl,
      List.cons_append] at hc
    simp only [List.head?_cons, Option.some.injEq] at hc
    subst hc
    decide

mutual
/-- Parsing a printed JSON value followed by anything whose first character is
not a digit, with fuel at least the printed length, yields the value and the
trailing characters. -/
theorem jparseF_jprint : ∀ (j : Json) (fuel : Nat) (rest : List Char),
    (jprint j).length ≤ fuel →
    (∀ c, rest.head? = some c → isDigitChar c = false) →
    jparseF fuel (jprint j ++ rest) = some (j, rest)
  | .null, fuel, rest, hle, _ => by
    obtain ⟨f, rfl⟩ : ∃ f, fuel = f + 1 := by
      rcases fuel with _ | f
      · exact absurd hle (by have := jprint_length_pos .null; omega)
      · exact ⟨f, rfl⟩
    show jparseF (f + 1) (['n', 'u', 'l', 'l'] ++ rest) = some (.null, rest)
    simp only [List.cons_append, List.nil_append]
    rfl
  | .bool true, fuel, rest, hle, _ => by
    obtain ⟨f, rfl⟩ : ∃ f, fuel = f + 1 := by
      rcases fuel with _ | f
      · exact absurd hle (by have := jprint_length_pos (.bool true); omega)
      · exact ⟨f, rfl⟩
    show jparseF (f + 1) (['t', 'r', 'u', 'e'] ++ rest) = some (.bool true, rest)
    simp only [List.cons_append, List.nil_append]
    rfl
  | .bool false, fuel, rest, hle, _ => by
    obtain ⟨f, rfl⟩ : ∃ f, fuel = f + 1 := by
      rcases fuel with _ | f
      · exact absurd hle (by have := jprint_length_pos (.bool false); omega)
      · exact ⟨f, rfl⟩
    show jparseF (f + 1) (['f', 'a', 'l', 's', 'e'] ++ rest) = some (.bool false, rest)
    simp only [List.cons_append, List.nil_append]
    rfl
  | .num n, fuel, rest, hle, hrest => by
    obtain ⟨f, rfl⟩ : ∃ f, fuel = f + 1 := by
      rcases fuel with _ | f
      · exact absurd hle (by have := jprint_length_pos (.num n); omega)
      · exact ⟨f, rfl⟩
    show jparseF (f + 1) (intChars n ++ rest) = some (.num n, rest)
    by_cases hn : n < 0
    · rw [show intChars n = '-' :: natDigitChars n.natAbs from by rw [intChars, if_pos hn]]
      rw [List.cons_append]
      simp only [jparseF]
      rw [if_pos trivial]
      rw [readDigits_nat n.natAbs rest hrest]
      dsimp only
      have hval : -((n.natAbs : Nat) : Int) = n := by omega
      rw [hval]
      rfl
    · rw [show intChars n = natDigitChars n.toNat from by rw [intChars, if_neg hn]]
      obtain ⟨c, t, hct, h48, h57⟩ := natDigitChars_cons n.toNat
      have hdig : isDigitChar c = true := by
        simp only [isDigitChar, Bool.and_eq_true, decide_eq_true_iff]
        exact ⟨h48, h57⟩
      rw [hct, List.cons_append]
      simp only [jparseF]
      rw [if_neg (by intro hcc; subst hcc; exact absurd h57 (by decide)),
        if_neg (by intro hcc; subst hcc; exact absurd h57 (by decide)),
        if_neg (by intro hcc; subst hcc; exact absurd h57 (by decide)),
        if_neg (by intro hcc; subst hcc; exact absurd h48 (by decide)),
        if_neg (by intro hcc; subst hcc; exact absurd h48 (by decide)),
        if_pos hdig]
      rw [← List.cons_append, ← hct, readDigits_nat n.toNat rest hrest]
      dsimp only
      have hval : ((n.toNat : Nat) : Int) = n := by omega
      rw [hval]
  | .str s, fuel, rest, hle, _ => by
    obtain ⟨f, rfl⟩ : ∃ f, fuel = f + 1 := by
      rcases fuel with _ | f
      · exact absurd hle (by have := jprint_length_pos (.str s); omega)
      · exact ⟨f, rfl⟩
    show jparseF (f + 1) (('"' :: (jsonEscape s.data ++ ['"'])) ++ rest) = some (.str s, rest)
    rw [List.cons_append, List.append_assoc, List.singleton_append]
    simp only [jparseF]
    rw [if_pos trivial]
    rw [jparseStringBody_escape s.data rest]
    rfl
  | .arr xs, fuel, rest, hle, _ => by
    obtain ⟨f, rfl⟩ : ∃ f, fuel = f + 1 := by
      rcases fuel with _ | f
      · exact absurd hle (by have := jprint_length_pos (.arr xs); omega)
      · exact ⟨f, rfl⟩
    have harr : (jprint (.arr xs)).length = (jprintArrBody xs).length + 2 := by
      show ('[' :: (jprintArrBody xs ++ [']'])).length = _
      simp
    show jparseF (f + 1) (('[' :: (jprintArrBody xs ++ [']'])) ++ rest) = some (.arr xs, rest)
    rw [List.cons_append, List.append_assoc, List.singleton_append]
    simp only [jparseF]
    rw [if_neg (by decide), if_pos trivial]
    rw [jparseItemsStartF_jprint xs f rest (by omega)]
    rfl
  | .obj fs, fuel, rest, hle, _ => by
    obtain ⟨f, rfl⟩ : ∃ f, fuel = f + 1 := by
      rcases fuel with _ | f
      · exact absurd hle (by have := jprint_length_pos (.obj fs); omega)
      · exact ⟨f, rfl⟩
    have hobj : (jprint (.obj fs)).length = (jprintObjBody fs).length + 2 := by
      show (lbraceC :: (jprintObjBody fs ++ [rbraceC])).length = _
      simp
    show jparseF (f + 1) ((lbraceC :: (jprintObjBody fs ++ [rbraceC])) ++ rest)
        = some (.obj fs, rest)
    rw [List.cons_append, List.append_assoc, List.singleton_append]
    simp only [jparseF]
    rw [if_pos trivial]
    rw [jparseFieldsStartF_jprint fs f rest (by omega)]
    rfl
/-- Parsing the printed contents of an array up to the closing bracket. -/
theorem jparseItemsStartF_jprint : ∀ (xs : List Json) (fuel : Nat) (rest : List Char),
    (jprintArrBody xs).length + 1 ≤ fuel →
    jparseItemsStartF fuel (jprintArrBody xs ++ ']' :: rest) = some (xs, rest)
  | [], fuel, rest, hle => by
    obtain ⟨f, rfl⟩ : ∃ f, fuel = f + 1 := by
      rcases fuel with _ | f
      · exact absurd hle (by omega)
      · exact ⟨f, rfl⟩
    show jparseItemsStartF (f + 1) (([] : List Char) ++ ']' :: rest) = some ([], rest)
    rw [List.nil_append]
    simp only [jparseItemsStartF]
    rw [if_pos trivial]
  | x :: xs, fuel, rest, hle => by
    obtain ⟨f, rfl⟩ : ∃ f, fuel = f + 1 := by
      rcases fuel with _ | f
      · exact absurd hle (by omega)
      · exact ⟨f, rfl⟩
    obtain ⟨c, t, hct, hcne⟩ := jprint_cons x
    have hx1 : 1 ≤ (jprint x).length := jprint_length_pos x
    have hlens : (jprintArrBody (x :: xs)).length
        = (jprint x).length + (jprintItems xs).length := by
      show (jprint x ++ jprintItems xs).length = _
      simp
    show jparseItemsStartF (f + 1) ((jprint x ++ jprintItems xs) ++ ']' :: rest)
        = some (x :: xs, rest)
    rw [List.append_assoc, hct, List.cons_append]
    simp only [jparseItemsStartF]
    rw [if_neg hcne]
    rw [← List.cons_append, ← hct]
    rw [jparseF_jprint x f (jprintItems xs ++ ']' :: rest) (by omega)
      (jprintItems_tail_not_digit xs rest)]
    dsimp only
    rw [jparseItemsLoopF_jprint xs f rest (by omega)]
    rfl
/-- Parsing the printed comma-led tail of an array up to the closing bracket. -/
theorem jparseItemsLoopF_jprint : ∀ (xs : List Json) (fuel : Nat) (rest : List Char),
    (jprintItems xs).length + 1 ≤ fuel →
    jparseItemsLoopF fuel (jprintItems xs ++ ']' :: rest) = some (xs, rest)
  | [], fuel, rest, hle => by
    obtain ⟨f, rfl⟩ : ∃ f, fuel = f + 1 := by
      rcases fuel with _ | f
      · exact absurd hle (by omega)
      · exact ⟨f, rfl⟩
    show jparseItemsLoopF (f + 1) (([] : List Char) ++ ']' :: rest) = some ([], rest)
    rw [List.nil_append]
    simp only [jparseItemsLoopF]
    rw [if_pos trivial]
  | x :: xs, fuel, rest, hle => by
    obtain ⟨f, rfl⟩ : ∃ f, fuel = f + 1 := by
      rcases fuel with _ | f
      · exact absurd hle (by omega)
      · exact ⟨f, rfl⟩
    have hlens : (jprintItems (x :: xs)).length
        = (jprint x).length + (jprintItems xs).length + 1 := by
      show (',' :: (jprint x ++ jprintItems xs)).length = _
      simp
    show jparseItemsLoopF (f + 1) ((',' :: (jprint x ++ jprintItems xs)) ++ ']' :: rest)
        = some (x :: xs, rest)
    rw [List.cons_append, List.append_assoc]
    simp only [jparseItemsLoopF]
    rw [if_pos trivial]
    rw [jparseF_jprint x f (jprintItems xs ++ ']' :: rest) (by omega)
      (jprintItems_tail_not_digit xs rest)]
    dsimp only
    rw [jparseItemsLoopF_jprint xs f rest (by omega)]
    rfl
/-- Parsing the printed contents of an object up to the closing brace. -/
theorem jparseFieldsStartF_jprint : ∀ (fs : List (String × Json)) (fuel : Nat)
    (rest : List Char),
    (jprintObjBody fs).length + 1 ≤ fuel →
    jparseFieldsStartF fuel (jprintObjBody fs ++ rbraceC :: rest) = some (fs, rest)
  | [], fuel, rest, hle => by
    obtain ⟨f, rfl⟩ : ∃ f, fuel = f + 1 := by
      rcases fuel with _ | f
      · exact absurd hle (by omega)
      · exact ⟨f, rfl⟩
    show jparseFieldsStartF (f + 1) (([] : List Char) ++ rbraceC :: rest) = some ([], rest)
    rw [List.nil_append]
    simp only [jparseFieldsStartF]
    rw [if_pos trivial]
  | (k, v) :: fs, fuel, rest, hle => by
    obtain ⟨f, rfl⟩ : ∃ f, fuel = f + 1 := by
      rcases fuel with _ | f
      · exact absurd hle (by omega)
      · exact ⟨f, rfl⟩
    have hlenf : (jprintField (k, v)).length
        = (jsonEscape k.data).length + 3 + (jprint v).length := by
      show ('"' :: (jsonEscape k.data ++ ('"' :: ':' :: jprint v))).length = _
      simp
      omega
    have hlens : (jprintObjBody ((k, v) :: fs)).length
        = (jprintField (k, v)).length + (jprintFields fs).length := by
      show (jprintField (k, v) ++ jprintFields fs).length = _
      simp
    obtain ⟨g, rfl⟩ : ∃ g, f = g + 1 := by
      rcases f with _ | g
      · exfalso; omega
      · exact ⟨g, rfl⟩
    show jparseFieldsStartF (g + 1 + 1)
        ((jprintField (k, v) ++ jprintFields fs) ++ rbraceC :: rest)
      = some ((k, v) :: fs, rest)
    rw [List.append_assoc]
    rw [show jprintField (k, v) = '"' :: (jsonEscape k.data ++ ('"' :: ':' :: jprint v))
      from rfl]
    rw [List.cons_append]
    simp only [jparseFieldsStartF]
    rw [if_neg (by decide)]
    have hfield : jparseFieldF (g + 1)
        ('"' :: ((jsonEscape k.data ++ ('"' :: ':' :: jprint v))
          ++ (jprintFields fs ++ rbraceC :: rest)))
        = some ((k, v), jprintFields fs ++ rbraceC :: rest) := by
      simp only [jparseFieldF]
      rw [if_pos trivial]
      rw [List.append_assoc]
      simp only [List.cons_append]
      rw [jparseStringBody_escape k.data
        (':' :: (jprint v ++ (jprintFields fs ++ rbraceC :: rest)))]
      simp only []
      rw [jparseF_jprint v g (jprintFields fs ++ rbraceC :: rest) (by omega)
        (jprintFields_tail_not_digit fs rest)]
    rw [hfield]
    dsimp only
    rw [jparseFieldsLoopF_jprint fs (g + 1) rest (by omega)]
    rfl
/-- Parsing the printed comma-led tail of an object up to the closing brace. -/
theorem jparseFieldsLoopF_jprint : ∀ (fs : List (String × Json)) (fuel : Nat)
    (rest : List Char),
    (jprintFields fs).length + 1 ≤ fuel →
    jparseFieldsLoopF fuel (jprintFields fs ++ rbraceC :: rest) = some (fs, rest)
  | [], fuel, rest, hle => by
    obtain ⟨f, rfl⟩ : ∃ f, fuel = f + 1 := by
      rcases fuel with _ | f
      · exact absurd hle (by omega)
      · exact ⟨f, rfl⟩
    show jparseFieldsLoopF (f + 1) (([] : List Char) ++ rbraceC :: rest) = some ([], rest)
    rw [List.nil_append]
    simp only [jparseFieldsLoopF]
    rw [if_pos trivial]
  | (k, v) :: fs, fuel, rest, hle => by
    obtain ⟨f, rfl⟩ : ∃ f, fuel = f + 1 := by
      rcases fuel with _ | f
      · exact absurd hle (by omega)
      · exact ⟨f, rfl⟩
    have hlenf : (jprintField (k, v)).length
        = (jsonEscape k.data).length + 3 + (jprint v).length := by
      show ('"' :: (jsonEscape k.data ++ ('"' :: ':' :: jprint v))).length = _
      simp
      omega
    have hlens : (jprintFields ((k, v) :: fs)).length
        = (jprintField (k, v)).length + (jprintFields fs).length + 1 := by
      show (',' :: (jprintField (k, v) ++ jprintFields fs)).length = _
      simp
    obtain ⟨g, rfl⟩ : ∃ g, f = g + 1 := by
      rcases f with _ | g
      · exfalso; omega
      · exact ⟨g, rfl⟩
    show jparseFieldsLoopF (g + 1 + 1)
        ((',' :: (jprintField (k, v) ++ jprintFields fs)) ++ rbraceC :: rest)
      = some ((k, v) :: fs, rest)
    rw [List.cons_append, List.append_assoc]
    simp only [jparseFieldsLoopF]
    rw [if_neg (by decide), if_pos trivial]
    rw [show jprintField (k, v) = '"' :: (jsonEscape k.data ++ ('"' :: ':' :: jprint v))
      from rfl]
    rw [List.cons_append]
    have hfield : jparseFieldF (g + 1)
        ('"' :: ((jsonEscape k.data ++ ('"' :: ':' :: jprint v))
          ++ (jprintFields fs ++ rbraceC :: rest)))
        = some ((k, v), jprintFields fs ++ rbraceC :: rest) := by
      simp only [jparseFieldF]
      rw [if_pos trivial]
      rw [List.append_assoc]
      simp only [List.cons_append]
      rw [jparseStringBody_escape k.data
        (':' :: (jprint v ++ (jprintFields fs ++ rbraceC :: rest)))]
      simp only []
      rw [jparseF_jprint v g (jprintFields fs ++ rbraceC :: rest) (by omega)
        (jprintFields_tail_not_digit fs rest)]
    rw [hfield]
    dsimp only
    rw [jparseFieldsLoopF_jprint fs (g + 1) rest (by omega)]
    rfl
end

/-- `JSON.parse` inverts `JSON.stringify` on every modelled JSON value. -/
theorem parseStr_stringify (j : Json) : Json.parseStr (Json.stringify j) = some j := by
  unfold Json.parseStr Json.stringify
  rw [show jparseF ((jprint j).length + 1) (jprint j) = some (j, []) from by
    have h := jparseF_jprint j ((jprint j).length + 1) [] (by omega)
      (by intro c hc; simp at hc)
    rwa [List.append_nil] at h]

/-- Claim C5.  For every request and every handler result value (`none`
modelling the JS `undefined`), parsing the string produced by
`JsonRpcProtocol.formatResult` yields the serialized response object, whose
`result` field equals the value (or `null` when it was undefined) and whose
`id` field equals the request's id (or `null` when the request has none). -/
theorem c5_format_result_round_trip (req : Request) (v : Option Json) :
    Json.parseStr (jsonRpcFormatResult req v) = some (jsonRpcFormatResultObj req v) ∧
    jGet (jsonRpcFormatResultObj req v) "result" = some (v.getD .null) ∧
    jGet (jsonRpcFormatResultObj req v) "id" = some (req.id.getD .null) :=
  ⟨parseStr_stringify _, rfl, rfl⟩
